import Mathlib

/-!
Shallow embedding of the alpenglow-consensus Rust implementation
(src/rust-implementation/src/{types,votor,rotor,consensus}.rs) and proofs
about its voting, dissemination and orchestration layers.

Machine integers: Rust `u64`/`usize` values are modelled as `Nat`.  Where the
source performs arithmetic that can overflow (`StakeWeight` addition, the
quorum-threshold multiplication `total_stake * 80`, slot increment), the
result is reduced `% 2^64`, the wrap-around semantics of a release build;
where overflow is unreachable (lengths of allocated buffers) the arithmetic
is kept plain.  `HashMap` is modelled as an association list whose `insert`
replaces the binding of an existing key and appends a new key at the end;
iteration order is the list order.
-/

namespace Alpenglow

/-- Modulus of the Rust `u64` type. -/
def U64LIM : Nat := 18446744073709551616

/-- Modulus of a 32-byte block id (`[u8; 32]`), read as a little-endian number. -/
def IDLIM : Nat := 115792089237316195423570985008687907853269984665640564039457584007913129639936

/-- Lookup in an association-list map (model of `HashMap::get`). -/
def lookupA {α : Type} : List (Nat × α) → Nat → Option α
  | [], _ => none
  | (k, v) :: rest, key => if k = key then some v else lookupA rest key

/-- Key-membership test (model of `HashMap::contains_key`). -/
def containsA {α : Type} (m : List (Nat × α)) (key : Nat) : Bool :=
  (lookupA m key).isSome

/-- Insert into an association-list map (model of `HashMap::insert`): replaces
the binding of an existing key, appends a fresh key at the end. -/
def insertA {α : Type} : List (Nat × α) → Nat → α → List (Nat × α)
  | [], key, v => [(key, v)]
  | (k, w) :: rest, key, v =>
      if k = key then (key, v) :: rest else (k, w) :: insertA rest key v

/-- The keys of an association-list map. -/
def keysA {α : Type} (m : List (Nat × α)) : List Nat := m.map (·.1)

/-- StakeWeight addition, from `impl Add for StakeWeight` in types.rs:
`Self(self.0 + other.0)`, a plain `u64` addition (wrap-around `% 2^64`). -/
def StakeWeight.add (a b : Nat) : Nat := (a + b) % U64LIM

/-- Folded stake summation, from `impl Sum for StakeWeight`:
`iter.fold(StakeWeight(0), |a, b| a + b)` using the `u64` addition above. -/
def sumWrap (l : List Nat) : Nat := l.foldl (fun a b => (a + b) % U64LIM) 0

/-- ValidatorConfig from types.rs. -/
structure ValidatorConfig where
  id : Nat
  stake : Nat
  is_byzantine : Bool
  is_offline : Bool
deriving DecidableEq

/-- ValidatorSet from types.rs: registry plus cached total stake. -/
structure ValidatorSet where
  validators : List (Nat × ValidatorConfig)
  total_stake : Nat
deriving DecidableEq

/-- `ValidatorSet::new`. -/
def ValidatorSet.new : ValidatorSet := ⟨[], 0⟩

/-- `ValidatorSet::add_validator`: accumulates `total_stake += config.stake`
(`u64` wrap-around) and inserts the config keyed by its id. -/
def ValidatorSet.add_validator (vs : ValidatorSet) (c : ValidatorConfig) : ValidatorSet :=
  { validators := insertA vs.validators c.id c
    total_stake := (vs.total_stake + c.stake) % U64LIM }

/-- `ValidatorSet::get_validator`. -/
def ValidatorSet.get_validator (vs : ValidatorSet) (id : Nat) : Option ValidatorConfig :=
  lookupA vs.validators id

/-- `ValidatorSet::check_fast_quorum`: `threshold = (total_stake * 80) / 100`
(the `u64` product wraps on overflow) and `stake >= threshold`. -/
def ValidatorSet.check_fast_quorum (vs : ValidatorSet) (stake : Nat) : Bool :=
  decide ((vs.total_stake * 80 % U64LIM) / 100 ≤ stake)

/-- `ValidatorSet::check_fallback_quorum`: `threshold = (total_stake * 60) / 100`
(the `u64` product wraps on overflow) and `stake >= threshold`. -/
def ValidatorSet.check_fallback_quorum (vs : ValidatorSet) (stake : Nat) : Bool :=
  decide ((vs.total_stake * 60 % U64LIM) / 100 ≤ stake)

/-- Stake of a validator id in a registry list, 0 when unregistered
(helper for quorum-sum reasoning, mirrors `get_validator(..).map(|v| v.stake)`). -/
def stakeOfL (L : List (Nat × ValidatorConfig)) (u : Nat) : Nat :=
  match lookupA L u with
  | some c => c.stake
  | none => 0

/-- VoteRound from types.rs. -/
inductive VoteRound
  | Round1
  | Round2
deriving DecidableEq

/-- Vote from types.rs. -/
structure Vote where
  validator : Nat
  block_id : Nat
  slot : Nat
  round : VoteRound
  signature : List Nat
deriving DecidableEq

/-- VoteSet from types.rs: per-block round-1 and round-2 vote maps. -/
structure VoteSet where
  block_id : Nat
  round1_votes : List (Nat × Vote)
  round2_votes : List (Nat × Vote)
deriving DecidableEq

/-- `VoteSet::new`. -/
def VoteSet.new (b : Nat) : VoteSet := ⟨b, [], []⟩

/-- `VoteSet::add_vote`: inserts the vote into the map for its round,
keyed by the voting validator. -/
def VoteSet.add_vote (vs : VoteSet) (v : Vote) : VoteSet :=
  match v.round with
  | .Round1 => { vs with round1_votes := insertA vs.round1_votes v.validator v }
  | .Round2 => { vs with round2_votes := insertA vs.round2_votes v.validator v }

/-- FinalizationCertificate from types.rs. -/
structure FinalizationCertificate where
  block_id : Nat
  slot : Nat
  round : VoteRound
  votes : List Vote
  total_stake : Nat
deriving DecidableEq

/-- VotorError from votor.rs. -/
inductive VotorError
  | DoubleVote (v : Nat)
  | InvalidRound
  | UnknownValidator (v : Nat)
  | BlockNotFound (b : Nat)
deriving DecidableEq

/-- Votor state from votor.rs. -/
structure Votor where
  current_slot : Nat
  current_round : VoteRound
  vote_sets : List (Nat × VoteSet)
  finalized : List FinalizationCertificate
  validator_set : ValidatorSet
deriving DecidableEq

/-- `Votor::new`. -/
def Votor.new (vs : ValidatorSet) : Votor := ⟨0, .Round1, [], [], vs⟩

/-- `Votor::calculate_vote_stake`: sums (with the wrapping `StakeWeight` fold)
the stakes of the registered validators appearing in a vote map. -/
def Votor.calculate_vote_stake (s : Votor) (votes : List (Nat × Vote)) : Nat :=
  sumWrap ((votes.filterMap (fun p => s.validator_set.get_validator p.1)).map (·.stake))

/-- `Votor::create_certificate`: snapshots the vote map's values. -/
def Votor.create_certificate (s : Votor) (block_id slot : Nat) (round : VoteRound)
    (votes : List (Nat × Vote)) (total_stake : Nat) : FinalizationCertificate :=
  ⟨block_id, slot, round, votes.map (·.2), total_stake⟩

/-- `Votor::check_finalization`: fast path first (80% of round-1 stake,
checked whatever the current round is), then — only when the current round is
Round2 — the fallback path (60% of round-2 stake); a certificate is pushed
onto `finalized` whenever either check fires. -/
def Votor.check_finalization (s : Votor) (block_id slot : Nat) :
    Votor × Except VotorError (Option FinalizationCertificate) :=
  match lookupA s.vote_sets block_id with
  | none => (s, .error (.BlockNotFound block_id))
  | some vset =>
    let round1_stake := s.calculate_vote_stake vset.round1_votes
    if s.validator_set.check_fast_quorum round1_stake then
      let cert := s.create_certificate block_id slot .Round1 vset.round1_votes round1_stake
      ({ s with finalized := s.finalized ++ [cert] }, .ok (some cert))
    else if s.current_round = VoteRound.Round2 then
      let round2_stake := s.calculate_vote_stake vset.round2_votes
      if s.validator_set.check_fallback_quorum round2_stake then
        let cert := s.create_certificate block_id slot .Round2 vset.round2_votes round2_stake
        ({ s with finalized := s.finalized ++ [cert] }, .ok (some cert))
      else (s, .ok none)
    else (s, .ok none)

/-- `Votor::validate_vote`: only the membership check is live (the slot check
in the source is commented out). -/
def Votor.validate_vote (s : Votor) (v : Vote) : Except VotorError Unit :=
  if (s.validator_set.get_validator v.validator).isNone then
    .error (.UnknownValidator v.validator)
  else .ok ()

/-- `Votor::process_vote`: validate membership, get-or-create the block's
vote set (`entry..or_insert_with`), reject a double vote for the same
(validator, round, block id), insert the vote, then run the finalization
check.  The returned pair is (state after the call, returned `Result`). -/
def Votor.process_vote (s : Votor) (v : Vote) :
    Votor × Except VotorError (Option FinalizationCertificate) :=
  match s.validate_vote v with
  | .error e => (s, .error e)
  | .ok _ =>
    let entry :=
      match lookupA s.vote_sets v.block_id with
      | some vs0 => (vs0, s.vote_sets)
      | none => (VoteSet.new v.block_id, insertA s.vote_sets v.block_id (VoteSet.new v.block_id))
    let vset := entry.1
    let sets1 := entry.2
    let dbl :=
      match v.round with
      | .Round1 => containsA vset.round1_votes v.validator
      | .Round2 => containsA vset.round2_votes v.validator
    if dbl then ({ s with vote_sets := sets1 }, .error (.DoubleVote v.validator))
    else
      let s1 := { s with vote_sets := insertA sets1 v.block_id (vset.add_vote v) }
      s1.check_finalization v.block_id v.slot

/-- `Votor::advance_to_round2`. -/
def Votor.advance_to_round2 (s : Votor) : Votor := { s with current_round := .Round2 }

/-- `Votor::next_slot`: increments the slot (`u64` successor) and resets the
round to Round1; vote sets are retained. -/
def Votor.next_slot (s : Votor) : Votor :=
  { s with current_slot := (s.current_slot + 1) % U64LIM, current_round := .Round1 }

/-- `Votor::is_finalized`. -/
def Votor.is_finalized (s : Votor) (b : Nat) : Bool :=
  s.finalized.any (fun c => c.block_id = b)

/-- Block from types.rs; the 32-byte id digest is read as a number < 2^256. -/
structure Block where
  id : Nat
  slot : Nat
  parent : Option Nat
  leader : Nat
  transactions : List (List Nat)
  timestamp : Nat
deriving DecidableEq

/-- Little-endian fixed-width integer-to-bytes encoding (width `w` bytes). -/
def encLE : Nat → Nat → List Nat
  | 0, _ => []
  | w + 1, v => v % 256 :: encLE w (v / 256)

/-- Little-endian bytes-to-integer decoding. -/
def decLE (l : List Nat) : Nat := l.foldr (fun d acc => d + 256 * acc) 0

/-- Modelled from the spec: `parent_opt` is encoded as a single tag byte
(0 = None, 1 = Some) followed by the 32-byte digest if present. -/
def encOptId : Option Nat → List Nat
  | none => [0]
  | some p => 1 :: encLE 32 p

/-- Modelled from the spec: length-prefixed byte-vector encoding. -/
def encBytes (l : List Nat) : List Nat := encLE 8 l.length ++ l

/-- Modelled from the spec: the deterministic length-prefixed binary encoding
of a Block — fields in declaration order: `id`, `slot`, `parent`, `leader`,
`transactions` (count-prefixed, each entry length-prefixed), `timestamp`.
This stands in for the external `bincode::serialize`, which never fails on a
Block and is not part of this repository. -/
def serializeBlock (b : Block) : List Nat :=
  encLE 32 b.id ++ encLE 8 b.slot ++ encOptId b.parent ++ encLE 8 b.leader ++
    encLE 8 b.transactions.length ++ (b.transactions.map encBytes).flatten ++
    encLE 8 b.timestamp

/-- Byte-stream primitive: consume exactly `n` bytes. -/
def parseBytes (n : Nat) (l : List Nat) : Option (List Nat × List Nat) :=
  if n ≤ l.length then some (l.take n, l.drop n) else none

/-- Modelled from the spec: decode the optional parent id (tag byte 0/1). -/
def parseOptId : List Nat → Option (Option Nat × List Nat)
  | 0 :: rest => some (none, rest)
  | 1 :: rest =>
    match parseBytes 32 rest with
    | some (bs, r) => some (some (decLE bs), r)
    | none => none
  | _ => none

/-- Modelled from the spec: decode `n` length-prefixed transactions. -/
def parseTxs : Nat → List Nat → Option (List (List Nat) × List Nat)
  | 0, l => some ([], l)
  | n + 1, l =>
    match parseBytes 8 l with
    | none => none
    | some (lenb, l1) =>
      match parseBytes (decLE lenb) l1 with
      | none => none
      | some (tx, l2) =>
        match parseTxs n l2 with
        | none => none
        | some (txs, l3) => some (tx :: txs, l3)

/-- Modelled from the spec: decode a Block from a byte stream, returning the
unconsumed remainder. -/
def parseBlock (l : List Nat) : Option (Block × List Nat) :=
  match parseBytes 32 l with
  | none => none
  | some (idb, l1) =>
    match parseBytes 8 l1 with
    | none => none
    | some (slotb, l2) =>
      match parseOptId l2 with
      | none => none
      | some (par, l3) =>
        match parseBytes 8 l3 with
        | none => none
        | some (leadb, l4) =>
          match parseBytes 8 l4 with
          | none => none
          | some (ntxb, l5) =>
            match parseTxs (decLE ntxb) l5 with
            | none => none
            | some (txs, l6) =>
              match parseBytes 8 l6 with
              | none => none
              | some (tsb, l7) =>
                some (⟨decLE idb, decLE slotb, par, decLE leadb, txs, decLE tsb⟩, l7)

/-- Modelled from the spec: Block deserialisation, the inverse of
`serializeBlock` (stands in for the external `bincode::deserialize`, which
tolerates trailing bytes). -/
def deserializeBlock (l : List Nat) : Option Block := (parseBlock l).map (·.1)

/-- Well-formedness of a Block as a Rust value: every `u64` field fits in a
`u64`, the id digests fit in 32 bytes, and the transaction count fits in a
`u64`. -/
def BlockWF (b : Block) : Prop :=
  b.id < IDLIM ∧ b.slot < U64LIM ∧ (∀ p ∈ b.parent, p < IDLIM) ∧
    b.leader < U64LIM ∧ b.transactions.length < U64LIM ∧
    (∀ tx ∈ b.transactions, tx.length < U64LIM) ∧ b.timestamp < U64LIM

/-- RotorError from rotor.rs. -/
inductive RotorError
  | ErasureCodingFailed
  | InsufficientShreds
  | InvalidShred
deriving DecidableEq

/-- Shred from rotor.rs. -/
structure Shred where
  block_id : Nat
  index : Nat
  total_shreds : Nat
  data : List Nat
deriving DecidableEq

/-- Rotor state from rotor.rs. -/
structure Rotor where
  validator_set : ValidatorSet
  received_shreds : List (Nat × List (Option Shred))
  reconstructed_blocks : List (Nat × Block)
deriving DecidableEq

/-- `Rotor::new`. -/
def Rotor.new (vs : ValidatorSet) : Rotor := ⟨vs, [], []⟩

/-- Successive chunks of at most `k` bytes (model of `slice::chunks`; the
source never calls it with `k = 0`, which would panic in Rust). -/
def chunksOf (k : Nat) (l : List Nat) : List (List Nat) :=
  if h : k = 0 ∨ l = [] then [] else l.take k :: chunksOf k (l.drop k)
termination_by l.length
decreasing_by
  push_neg at h
  simp only [List.length_drop]
  have hl := List.length_pos.mpr h.2
  omega

/-- The `while shreds.len() < num_validators` padding loop of
`Rotor::encode_block`: each appended shred carries empty data and an index
equal to the current length. -/
def padShreds (bid n : Nat) (s : List Shred) : List Shred :=
  s ++ ((List.range n).drop s.length).map (fun i => Shred.mk bid i n [])

/-- `Rotor::encode_block`: serialise the block, split into
`⌈len / num_validators⌉`-byte chunks, wrap each chunk in a shred and pad
with empty shreds up to the validator count. -/
def Rotor.encode_block (r : Rotor) (b : Block) : Except RotorError (List Shred) :=
  let serialized := serializeBlock b
  let num_validators := r.validator_set.validators.length
  let chunk_size := (serialized.length + num_validators - 1) / num_validators
  let base := (chunksOf chunk_size serialized).enum.map
    (fun p => Shred.mk b.id p.1 num_validators p.2)
  .ok (padShreds b.id num_validators base)

/-- `Rotor::try_reconstruct_block`: return the cached block if present;
otherwise, once at least `(len * 80) / 100` shred slots are non-empty,
concatenate the present shreds in index order, deserialise, verify the
decoded id against the buffer key and cache the block. -/
def Rotor.try_reconstruct_block (r : Rotor) (block_id : Nat) :
    Rotor × Except RotorError (Option Block) :=
  match lookupA r.reconstructed_blocks block_id with
  | some b => (r, .ok (some b))
  | none =>
    match lookupA r.received_shreds block_id with
    | none => (r, .error .InsufficientShreds)
    | some shreds =>
      let min_shreds_needed := shreds.length * 80 / 100
      let received_count := (shreds.filter (·.isSome)).length
      if received_count < min_shreds_needed then (r, .ok none)
      else
        let reconstructed_data := ((shreds.filterMap id).map (·.data)).flatten
        match deserializeBlock reconstructed_data with
        | none => (r, .error .ErasureCodingFailed)
        | some block =>
          if block.id = block_id then
            ({ r with reconstructed_blocks :=
                insertA r.reconstructed_blocks block_id block }, .ok (some block))
          else (r, .error .InvalidShred)

/-- `Rotor::receive_shred`: get-or-create the block's buffer (sized by the
first shred's `total_shreds`), store the shred at its index (rejecting an
index beyond the buffer length with InvalidShred), then attempt
reconstruction. -/
def Rotor.receive_shred (r : Rotor) (shred : Shred) :
    Rotor × Except RotorError (Option Block) :=
  let entry :=
    match lookupA r.received_shreds shred.block_id with
    | some b => (b, r.received_shreds)
    | none =>
      let nb := List.replicate shred.total_shreds (none : Option Shred)
      (nb, insertA r.received_shreds shred.block_id nb)
  let buf := entry.1
  let rs1 := entry.2
  if shred.index < buf.length then
    let buf1 := buf.set shred.index (some shred)
    let r1 := { r with received_shreds := insertA rs1 shred.block_id buf1 }
    r1.try_reconstruct_block shred.block_id
  else
    ({ r with received_shreds := rs1 }, .error .InvalidShred)

/-- `Rotor::get_block`. -/
def Rotor.get_block (r : Rotor) (b : Nat) : Option Block :=
  lookupA r.reconstructed_blocks b

/-- `Rotor::has_block`. -/
def Rotor.has_block (r : Rotor) (b : Nat) : Bool :=
  (lookupA r.reconstructed_blocks b).isSome

/-- Feeding a list of shreds to `Rotor::receive_shred` one after another,
keeping the state. -/
def Rotor.recvFold (r : Rotor) (l : List Shred) : Rotor :=
  l.foldl (fun r sh => (Rotor.receive_shred r sh).1) r

/-- A validator set with a single validator of stake 500 (spec boundary check). -/
def vs500 : ValidatorSet := ValidatorSet.new.add_validator ⟨0, 500, false, false⟩

/-- A validator set with five validators of equal stake (spec boundary check). -/
def vs5eq : ValidatorSet :=
  ((((ValidatorSet.new.add_validator ⟨0, 1, false, false⟩).add_validator
      ⟨1, 1, false, false⟩).add_validator
      ⟨2, 1, false, false⟩).add_validator
      ⟨3, 1, false, false⟩).add_validator ⟨4, 1, false, false⟩

/-- A validator set with a single validator of stake 2^62, making the `u64`
product `total_stake * 80` wrap. -/
def vsBig : ValidatorSet :=
  ValidatorSet.new.add_validator ⟨0, 4611686018427387904, false, false⟩

/-- A validator set with a single validator of stake 100. -/
def vs100 : ValidatorSet := ValidatorSet.new.add_validator ⟨0, 100, false, false⟩

/-- The Votor state after validator 0 cast a round-1 vote for block 7 at
slot 0, starting from `Votor::new` over `vs100` (the vote finalises block 7
on the fast path, since the full stake voted). -/
def votorFast : Votor :=
  ((Votor.new vs100).process_vote ⟨0, 7, 0, .Round1, []⟩).1

/-- The vote set recorded for block 7 inside `votorFast`. -/
def vsetFast : VoteSet := ⟨7, [(0, ⟨0, 7, 0, .Round1, []⟩)], []⟩

/-- States of the Votor reachable from `Votor::new` by any sequence of
`process_vote`, `advance_to_round2` and `next_slot` calls. -/
inductive Votor.Reachable (vs : ValidatorSet) : Votor → Prop
  | init : Votor.Reachable vs (Votor.new vs)
  | vote (s : Votor) (v : Vote) :
      Votor.Reachable vs s → Votor.Reachable vs (s.process_vote v).1
  | advance (s : Votor) :
      Votor.Reachable vs s → Votor.Reachable vs s.advance_to_round2
  | next (s : Votor) :
      Votor.Reachable vs s → Votor.Reachable vs s.next_slot

/-- ConsensusError from consensus.rs. -/
inductive ConsensusError
  | VotorFailed (e : VotorError)
  | RotorFailed (e : RotorError)
  | NotLeader (slot : Nat)
  | InvalidSlot (expected got : Nat)
deriving DecidableEq

/-- ConsensusConfig from consensus.rs (timeouts in milliseconds). -/
structure ConsensusConfig where
  round1_timeout : Nat
  round2_timeout : Nat
deriving DecidableEq

/-- ConsensusEngine state from consensus.rs.  The `Instant` of `round1_start`
is modelled as a millisecond reading of the monotonic clock; operations that
consult the clock take the current reading `now` as an argument. -/
structure ConsensusEngine where
  validator_id : Nat
  validator_set : ValidatorSet
  votor : Votor
  rotor : Rotor
  current_leader : Nat
  round1_start : Option Nat
  config : ConsensusConfig
deriving DecidableEq

/-- `ConsensusEngine::new`: initial leader is validator 0, no timer running. -/
def ConsensusEngine.new (vid : Nat) (vs : ValidatorSet) (cfg : ConsensusConfig) :
    ConsensusEngine :=
  ⟨vid, vs, Votor.new vs, Rotor.new vs, 0, none, cfg⟩

/-- `ConsensusEngine::advance_to_round2` (private helper): forwards to the
Votor. -/
def ConsensusEngine.advance_to_round2 (e : ConsensusEngine) : ConsensusEngine :=
  { e with votor := e.votor.advance_to_round2 }

/-- `ConsensusEngine::check_round1_timeout`: if the round-1 timer is running
and `start.elapsed() = now - start` has reached the configured timeout,
advance to round 2 and return true; otherwise return false.  The timer is
not touched by this call. -/
def ConsensusEngine.check_round1_timeout (e : ConsensusEngine) (now : Nat) :
    ConsensusEngine × Bool :=
  match e.round1_start with
  | some start =>
    if e.config.round1_timeout ≤ now - start then (e.advance_to_round2, true)
    else (e, false)
  | none => (e, false)

/-- `ConsensusEngine::propose_block`: leader and slot preconditions, Rotor
encoding, then the round-1 timer starts at the current instant. -/
def ConsensusEngine.propose_block (e : ConsensusEngine) (b : Block) (now : Nat) :
    ConsensusEngine × Except ConsensusError (List Shred) :=
  if e.current_leader ≠ e.validator_id then (e, .error (.NotLeader b.slot))
  else if b.slot ≠ e.votor.current_slot then
    (e, .error (.InvalidSlot e.votor.current_slot b.slot))
  else
    match e.rotor.encode_block b with
    | .error er => (e, .error (.RotorFailed er))
    | .ok shreds => ({ e with round1_start := some now }, .ok shreds)

/-- `ConsensusEngine::next_slot`: advance the Votor's slot, clear the round-1
timer, rotate the leader round-robin modulo the validator count. -/
def ConsensusEngine.next_slot (e : ConsensusEngine) : ConsensusEngine :=
  { e with votor := e.votor.next_slot, round1_start := none,
           current_leader :=
             ((e.current_leader + 1) % U64LIM) % (e.validator_set.validators.length % U64LIM) }

/-- A validator set of five validators with stake 100 each (the spec's
end-to-end scenario set-up). -/
def vs5x100 : ValidatorSet :=
  ((((ValidatorSet.new.add_validator ⟨0, 100, false, false⟩).add_validator
      ⟨1, 100, false, false⟩).add_validator
      ⟨2, 100, false, false⟩).add_validator
      ⟨3, 100, false, false⟩).add_validator ⟨4, 100, false, false⟩

/-- A round-1 vote for block 7 at slot 0 by validator `i`. -/
def r1vote (i : Nat) : Vote := ⟨i, 7, 0, .Round1, []⟩

/-- The Votor state over `vs5x100` after round-1 votes for block 7 at slot 0
from validators 0, 1, 2, 3 and 4 in order (the fourth vote reaches the fast
quorum of 400; the fifth arrives after finalisation). -/
def votorFive : Votor :=
  ((((((Votor.new vs5x100).process_vote (r1vote 0)).1.process_vote
    (r1vote 1)).1.process_vote (r1vote 2)).1.process_vote
    (r1vote 3)).1.process_vote (r1vote 4)).1

/-- The Votor state over `vs100` after validator 0 voted round-1 for block 7
and then round-1 for a different block 8, both at slot 0 (each vote crosses
the 80-stake fast quorum on its own). -/
def votorEquiv : Votor :=
  (votorFast.process_vote ⟨0, 8, 0, .Round1, []⟩).1

/-- The Votor state over `vs100` after validator 0 voted round-1 for block 7
at slot 0 (finalising it fast), the round advanced to Round2, and validator 0
then voted round-2 for a different block 9 at slot 0 (crossing the
60-stake fallback quorum). -/
def votorCrossRound : Votor :=
  (votorFast.advance_to_round2.process_vote ⟨0, 9, 0, .Round2, []⟩).1

/-- Decidable check that no validator has round-1 votes recorded under two
distinct block ids (no round-1 equivocation is recorded in the state). -/
def Votor.noRound1Equivocation (s : Votor) : Bool :=
  s.vote_sets.all (fun p1 => s.vote_sets.all (fun p2 =>
    p1.1 = p2.1 ||
      (keysA p1.2.round1_votes).all (fun u => !(containsA p2.2.round1_votes u))))

/-- A consensus engine over `vs100` whose round-1 timer started at instant 0
with a 100 ms timeout. -/
def engineTimer : ConsensusEngine :=
  { ConsensusEngine.new 0 vs100 ⟨100, 150⟩ with round1_start := some 0 }

/-- The validators that signed a certificate's votes. -/
def certVoters (c : FinalizationCertificate) : List Nat := c.votes.map (·.validator)

/-- Well-formedness of a validator set as produced by `new`/`add_validator`:
distinct registry keys, the cached total stake is the exact sum of the
registered stakes, and the quorum-threshold product does not overflow. -/
def ValidatorSet.WF (vs : ValidatorSet) : Prop :=
  (keysA vs.validators).Nodup ∧
  vs.total_stake = (vs.validators.map (fun p => p.2.stake)).sum ∧
  vs.total_stake * 80 < U64LIM

/-- Well-formedness of a per-round vote map: distinct keys, every vote is
stored under its own validator, and every voter is registered. -/
def MapOK (vs : ValidatorSet) (m : List (Nat × Vote)) : Prop :=
  (keysA m).Nodup ∧
  ∀ p ∈ m, p.2.validator = p.1 ∧ (lookupA vs.validators p.1).isSome = true

/-- What the Votor guarantees about a Round1 certificate it has emitted:
its voters are (distinct, round-1-recorded) voters of its block, its total
stake is their exact stake sum and it meets the fast-quorum threshold. -/
def CertOK (vs : ValidatorSet) (s : Votor) (c : FinalizationCertificate) : Prop :=
  ∃ vset, lookupA s.vote_sets c.block_id = some vset ∧
    (∀ u ∈ certVoters c, u ∈ keysA vset.round1_votes) ∧
    (certVoters c).Nodup ∧
    c.total_stake = ((certVoters c).map (stakeOfL vs.validators)).sum ∧
    vs.total_stake * 80 / 100 ≤ c.total_stake

/-- Inductive invariant of the Votor state machine. -/
def VotorInv (vs : ValidatorSet) (s : Votor) : Prop :=
  s.validator_set = vs ∧
  (∀ b vset, lookupA s.vote_sets b = some vset →
    MapOK vs vset.round1_votes ∧ MapOK vs vset.round2_votes) ∧
  (∀ c ∈ s.finalized, c.round = VoteRound.Round1 → CertOK vs s c)

/-- The certificate emitted inside `votorFast`. -/
def certFast : FinalizationCertificate := ⟨7, 0, .Round1, [⟨0, 7, 0, .Round1, []⟩], 100⟩

/-- The `i`-th shred produced by `encode_block` for a block `b` over `n`
validators with chunk size `csz` (indices at or beyond the chunk count carry
empty data, matching the padding loop). -/
def shredOf (b : Block) (n csz i : Nat) : Shred :=
  ⟨b.id, i, n, ((serializeBlock b).drop (i * csz)).take csz⟩

/-- The shred buffer for `b` after the first `j` of `n` shreds arrived in
index order. -/
def bufAt (b : Block) (n csz j : Nat) : List (Option Shred) :=
  ((List.range j).map (fun i => some (shredOf b n csz i))) ++
    List.replicate (n - j) (none : Option Shred)

/-- The Rotor state reached from `r0` after receiving the first `j` shreds of
`b` in index order: the buffer holds those shreds, and the block is cached
exactly once at least `⌊0.8·n⌋` shreds have arrived and they cover the whole
serialisation. -/
def stateAt (r0 : Rotor) (b : Block) (n csz j : Nat) : Rotor :=
  ⟨r0.validator_set, insertA r0.received_shreds b.id (bufAt b n csz j),
    if n * 80 / 100 ≤ j ∧ (serializeBlock b).length ≤ j * csz
    then insertA r0.reconstructed_blocks b.id b else r0.reconstructed_blocks⟩

end Alpenglow

namespace Alpenglow

/-- C8-amended: StakeWeight addition is plain `u64` addition — on inputs whose
sum fits in a `u64` it returns the exact sum (it does not saturate; on
overflow it wraps modulo 2^64, a precondition violation per the spec). -/
theorem stakeWeight_add_exact (a b : Nat) (h : a + b < U64LIM) :
    StakeWeight.add a b = a + b := by
  unfold StakeWeight.add
  exact Nat.mod_eq_of_lt h

/-- C8-witness: the amended addition theorem applied at a concrete input. -/
theorem stakeWeight_add_exact_witness :
    3 + 4 < U64LIM ∧ StakeWeight.add 3 4 = 3 + 4 :=
  ⟨by decide, stakeWeight_add_exact 3 4 (by decide)⟩

/-- C8-counterexample: `StakeWeight` addition does not saturate at `u64::MAX`:
at a = u64::MAX and b = 1 the code wraps to 0 (in a debug build it panics),
while saturating addition would return u64::MAX = min(a + b, u64::MAX). -/
theorem stakeWeight_add_not_saturating :
    StakeWeight.add (U64LIM - 1) 1 ≠ min ((U64LIM - 1) + 1) (U64LIM - 1) := by
  decide

/-- C3-amended: provided the `u64` product `total_stake * 80` does not
overflow, `check_fast_quorum(x)` holds iff x ≥ ⌊0.8·S⌋ = ⌊4S/5⌋ and
`check_fallback_quorum(x)` holds iff x ≥ ⌊0.6·S⌋ = ⌊3S/5⌋.  Without that
bound the threshold computation wraps modulo 2^64 and the equivalence fails
(see the counterexample). -/
theorem quorum_thresholds_exact (vs : ValidatorSet) (h : vs.total_stake * 80 < U64LIM) :
    (∀ x, vs.check_fast_quorum x = true ↔ 4 * vs.total_stake / 5 ≤ x) ∧
    (∀ x, vs.check_fallback_quorum x = true ↔ 3 * vs.total_stake / 5 ≤ x) := by
  constructor
  · intro x
    unfold ValidatorSet.check_fast_quorum
    rw [Nat.mod_eq_of_lt h, decide_eq_true_eq]
    omega
  · intro x
    have h60 : vs.total_stake * 60 < U64LIM := by
      unfold U64LIM at h ⊢
      omega
    unfold ValidatorSet.check_fallback_quorum
    rw [Nat.mod_eq_of_lt h60, decide_eq_true_eq]
    omega

/-- C3-witness: the boundary checks of the spec, derived from the amended
theorem at concrete validator sets: with S = 500 stake 400 meets the fast
quorum and 399 does not; with five equally staked validators the fast quorum
is 4 and the fallback quorum is 3. -/
theorem quorum_thresholds_exact_witness :
    vs500.total_stake * 80 < U64LIM ∧
    vs500.check_fast_quorum 400 = true ∧
    vs500.check_fast_quorum 399 ≠ true ∧
    vs5eq.check_fast_quorum 4 = true ∧
    vs5eq.check_fast_quorum 3 ≠ true ∧
    vs5eq.check_fallback_quorum 3 = true ∧
    vs5eq.check_fallback_quorum 2 ≠ true := by
  refine ⟨by decide, ?_, ?_, ?_, ?_, ?_, ?_⟩
  · exact ((quorum_thresholds_exact vs500 (by decide)).1 400).mpr (by decide)
  · intro hc
    exact absurd (((quorum_thresholds_exact vs500 (by decide)).1 399).mp hc) (by decide)
  · exact ((quorum_thresholds_exact vs5eq (by decide)).1 4).mpr (by decide)
  · intro hc
    exact absurd (((quorum_thresholds_exact vs5eq (by decide)).1 3).mp hc) (by decide)
  · exact ((quorum_thresholds_exact vs5eq (by decide)).2 3).mpr (by decide)
  · intro hc
    exact absurd (((quorum_thresholds_exact vs5eq (by decide)).2 2).mp hc) (by decide)

/-- C3-counterexample: for the validator set with total stake 2^62 the `u64`
product 2^62·80 wraps to 0, so `check_fast_quorum(0)` returns true although
0 < ⌊0.8·S⌋ — the claimed equivalence fails on this validator set. -/
theorem quorum_threshold_overflow_counterexample :
    vsBig.check_fast_quorum 0 = true ∧ ¬ 4 * vsBig.total_stake / 5 ≤ 0 := by
  decide

/-- C4: dual-path finalisation order in `Votor::check_finalization`: the fast
path is checked first and unconditionally — a round-1 vote set meeting the
fast quorum yields a Round1 certificate whatever the current round is — the
fallback path is consulted only when the current round is Round2, and when
both quorums hold the emitted certificate has round Round1 (first conjunct
applies regardless of the round-2 stake). -/
theorem fast_path_precedence (s : Votor) (b slot : Nat) (vset : VoteSet)
    (hv : lookupA s.vote_sets b = some vset) :
    (s.validator_set.check_fast_quorum (s.calculate_vote_stake vset.round1_votes) = true →
      ∃ cert, (s.check_finalization b slot).2 = .ok (some cert) ∧
        cert.round = VoteRound.Round1) ∧
    (s.validator_set.check_fast_quorum (s.calculate_vote_stake vset.round1_votes) = false →
      s.current_round = VoteRound.Round1 →
      s.check_finalization b slot = (s, .ok none)) ∧
    (s.validator_set.check_fast_quorum (s.calculate_vote_stake vset.round1_votes) = false →
      s.current_round = VoteRound.Round2 →
      s.validator_set.check_fallback_quorum (s.calculate_vote_stake vset.round2_votes) = true →
      ∃ cert, (s.check_finalization b slot).2 = .ok (some cert) ∧
        cert.round = VoteRound.Round2) := by
  refine ⟨fun hfast => ?_, fun hfast hr => ?_, fun hfast hr hfb => ?_⟩
  · simp only [Votor.check_finalization, hv, hfast, if_true]
    exact ⟨_, rfl, rfl⟩
  · simp only [Votor.check_finalization, hv, hfast, hr]
    simp
  · simp only [Votor.check_finalization, hv, hfast, hr, hfb]
    simp only [Bool.false_eq_true, if_false, if_true]
    exact ⟨_, rfl, rfl⟩

/-- C4-witness: the precedence theorem applied to the concrete state
`votorFast`, whose round-1 votes for block 7 meet the fast quorum. -/
theorem fast_path_precedence_witness :
    lookupA votorFast.vote_sets 7 = some vsetFast ∧
    votorFast.validator_set.check_fast_quorum
      (votorFast.calculate_vote_stake vsetFast.round1_votes) = true ∧
    ∃ cert, (votorFast.check_finalization 7 0).2 = .ok (some cert) ∧
      cert.round = VoteRound.Round1 := by
  refine ⟨by decide, by decide, ?_⟩
  exact (fast_path_precedence votorFast 7 0 vsetFast (by decide)).1 (by decide)

/-- C5: double-vote rejection with atomicity: when the voting validator is
registered and a vote for the same (validator, round, block id) is already
recorded, `Votor::process_vote` returns the DoubleVote error and the Votor
state is left completely unchanged (in particular the vote set and the
finalised list). -/
theorem double_vote_rejected_atomic (s : Votor) (v : Vote) (cfg : ValidatorConfig)
    (vset : VoteSet)
    (hreg : s.validator_set.get_validator v.validator = some cfg)
    (hvs : lookupA s.vote_sets v.block_id = some vset)
    (hdup : (match v.round with
             | VoteRound.Round1 => containsA vset.round1_votes v.validator
             | VoteRound.Round2 => containsA vset.round2_votes v.validator) = true) :
    s.process_vote v = (s, .error (.DoubleVote v.validator)) := by
  simp only [Votor.process_vote, Votor.validate_vote, hreg, Option.isNone_some,
    Bool.false_eq_true, if_false, hvs, hdup, if_true]

/-- C5-witness: replaying validator 0's round-1 vote for block 7 against
`votorFast` is rejected as a double vote and leaves the state unchanged. -/
theorem double_vote_rejected_atomic_witness :
    votorFast.validator_set.get_validator 0 = some ⟨0, 100, false, false⟩ ∧
    lookupA votorFast.vote_sets 7 = some vsetFast ∧
    containsA vsetFast.round1_votes 0 = true ∧
    votorFast.process_vote ⟨0, 7, 0, .Round1, []⟩ =
      (votorFast, .error (.DoubleVote 0)) := by
  refine ⟨by decide, by decide, by decide, ?_⟩
  exact double_vote_rejected_atomic votorFast ⟨0, 7, 0, .Round1, []⟩
    ⟨0, 100, false, false⟩ vsetFast (by decide) (by decide) (by decide)

/-- C2: the failing trace from the spec's own scenario — five validators of
stake 100; round-1 votes for block 7 at slot 0 from validators 0..3 emit a
fast certificate, and validator 4's further round-1 vote for the same slot
emits a second certificate: the finalised list of this reachable state holds
two certificates for slot 0, so certificate emission is not suppressed after
the first finalisation. -/
theorem duplicate_certificates_per_slot :
    Votor.Reachable vs5x100 votorFive ∧
    votorFive.finalized.map (fun c => (c.slot, c.block_id, c.round)) =
      [(0, 7, VoteRound.Round1), (0, 7, VoteRound.Round1)] := by
  constructor
  · exact .vote _ _ (.vote _ _ (.vote _ _ (.vote _ _ (.vote _ _ .init))))
  · decide

/-- C9-amended: `check_round1_timeout` returns false iff the round-1 timer is
unset or not yet elapsed; once the timer is set and elapsed, it advances the
round (idempotently) and returns true, and — because the call leaves
`round1_start` untouched — every subsequent call before a reset also returns
true (the claimed one-shot behaviour does not hold; a reset happens only via
`next_slot` or a new `propose_block`). -/
theorem check_round1_timeout_behaviour (e : ConsensusEngine) (now : Nat) :
    (e.round1_start = none → e.check_round1_timeout now = (e, false)) ∧
    (∀ t, e.round1_start = some t → now - t < e.config.round1_timeout →
      e.check_round1_timeout now = (e, false)) ∧
    (∀ t, e.round1_start = some t → e.config.round1_timeout ≤ now - t →
      e.check_round1_timeout now = (e.advance_to_round2, true) ∧
      e.advance_to_round2.round1_start = some t ∧
      ∀ later, now ≤ later →
        ((e.check_round1_timeout now).1.check_round1_timeout later).2 = true) := by
  refine ⟨fun h => ?_, fun t h hlt => ?_, fun t h hle => ?_⟩
  · simp [ConsensusEngine.check_round1_timeout, h]
  · simp only [ConsensusEngine.check_round1_timeout, h]
    rw [if_neg (by omega)]
  · refine ⟨?_, ?_, ?_⟩
    · simp only [ConsensusEngine.check_round1_timeout, h]
      rw [if_pos hle]
    · simp [ConsensusEngine.advance_to_round2, h]
    · intro later hlater
      have hle2 : e.config.round1_timeout ≤ later - t := by omega
      simp only [ConsensusEngine.check_round1_timeout, h]
      rw [if_pos hle]
      simp only [ConsensusEngine.advance_to_round2]
      simp only [ConsensusEngine.check_round1_timeout, h]
      rw [if_pos hle2]

/-- C9-witness: the amended theorem applied to the concrete engine
`engineTimer` (timer started at 0, timeout 100 ms) polled at instant 100. -/
theorem check_round1_timeout_behaviour_witness :
    engineTimer.round1_start = some 0 ∧
    engineTimer.config.round1_timeout ≤ 100 - 0 ∧
    engineTimer.check_round1_timeout 100 = (engineTimer.advance_to_round2, true) :=
  ⟨by decide, by decide,
    ((check_round1_timeout_behaviour engineTimer 100).2.2 0 (by decide) (by decide)).1⟩

/-- C9-counterexample: with the timer started at 0 and a 100 ms timeout, the
first poll at instant 100 returns true and the next poll at instant 120 —
with no slot change or new proposal in between — returns true again, not
false as the claim requires. -/
theorem check_round1_timeout_not_one_shot :
    (engineTimer.check_round1_timeout 100).2 = true ∧
    ((engineTimer.check_round1_timeout 100).1.check_round1_timeout 120).2 = true := by
  decide

/-- Lookup after inserting the same key. -/
theorem lookupA_insertA_self {α : Type} (m : List (Nat × α)) (k : Nat) (v : α) :
    lookupA (insertA m k v) k = some v := by
  induction m with
  | nil => simp [insertA, lookupA]
  | cons p rest ih =>
    by_cases h : p.1 = k
    · simp [insertA, h, lookupA]
    · simp [insertA, h, lookupA, ih]

/-- Lookup after inserting a different key. -/
theorem lookupA_insertA_ne {α : Type} (m : List (Nat × α)) (k k' : Nat) (v : α)
    (h : k' ≠ k) : lookupA (insertA m k v) k' = lookupA m k' := by
  have hne : ¬ k = k' := fun hh => h hh.symm
  induction m with
  | nil =>
    simp only [insertA, lookupA]
    rw [if_neg hne]
  | cons p rest ih =>
    rcases p with ⟨pk, pv⟩
    by_cases hp : pk = k
    · subst hp
      simp only [insertA, if_pos rfl, lookupA]
      rw [if_neg hne, if_neg hne]
    · simp only [insertA, if_neg hp, lookupA, ih]

/-- `try_reconstruct_block` never changes the shred buffers. -/
theorem try_reconstruct_received_eq (r : Rotor) (b : Nat) :
    (r.try_reconstruct_block b).1.received_shreds = r.received_shreds := by
  unfold Rotor.try_reconstruct_block
  cases lookupA r.reconstructed_blocks b with
  | some blk => rfl
  | none =>
    cases lookupA r.received_shreds b with
    | none => rfl
    | some shreds =>
      dsimp only
      split
      · rfl
      · cases deserializeBlock (((shreds.filterMap id).map (·.data)).flatten) with
        | none => rfl
        | some blk =>
          dsimp only
          split
          · rfl
          · rfl

/-- C10: the per-block shred buffer is sized by the first shred received for
the block id — it is created with `total_shreds` slots — and any later shred
whose index is at least the existing buffer's length is rejected with
InvalidShred, leaving the Rotor unchanged (in particular the later shred's
own `total_shreds` never resizes the buffer). -/
theorem shred_buffer_fixed_by_first (r : Rotor) (sh : Shred) :
    (lookupA r.received_shreds sh.block_id = none →
      ∃ buf, lookupA (r.receive_shred sh).1.received_shreds sh.block_id = some buf ∧
        buf.length = sh.total_shreds) ∧
    (∀ buf, lookupA r.received_shreds sh.block_id = some buf →
      buf.length ≤ sh.index →
      r.receive_shred sh = (r, .error .InvalidShred)) := by
  constructor
  · intro hnone
    by_cases hidx : sh.index < sh.total_shreds
    · refine ⟨(List.replicate sh.total_shreds (none : Option Shred)).set sh.index (some sh),
        ?_, by simp⟩
      simp only [Rotor.receive_shred, hnone]
      rw [if_pos (by simpa using hidx)]
      rw [try_reconstruct_received_eq]
      simp [lookupA_insertA_self]
    · refine ⟨List.replicate sh.total_shreds (none : Option Shred), ?_, by simp⟩
      simp only [Rotor.receive_shred, hnone]
      rw [if_neg (by simpa using hidx)]
      simp [lookupA_insertA_self]
  · intro buf hbuf hle
    simp only [Rotor.receive_shred, hbuf]
    rw [if_neg (by omega)]

/-- C10-witness: a buffer created by a first shred announcing 3 total shreds
rejects a later shred with index 5 even though that shred announces 10 total
shreds (5 < 10), and the state is unchanged. -/
theorem shred_buffer_fixed_by_first_witness :
    lookupA (Rotor.new vs100).received_shreds 7 = none ∧
    (∃ buf, lookupA ((Rotor.new vs100).receive_shred ⟨7, 0, 3, [1]⟩).1.received_shreds 7 =
        some buf ∧ buf.length = 3) ∧
    (∀ buf,
      lookupA ((Rotor.new vs100).receive_shred ⟨7, 0, 3, [1]⟩).1.received_shreds 7 = some buf →
      buf.length ≤ 5 →
      ((Rotor.new vs100).receive_shred ⟨7, 0, 3, [1]⟩).1.receive_shred ⟨7, 5, 10, [2]⟩ =
        (((Rotor.new vs100).receive_shred ⟨7, 0, 3, [1]⟩).1, .error .InvalidShred)) := by
  refine ⟨by decide, ?_, ?_⟩
  · exact (shred_buffer_fixed_by_first (Rotor.new vs100) ⟨7, 0, 3, [1]⟩).1 (by decide)
  · intro buf hbuf hle
    exact (shred_buffer_fixed_by_first _ ⟨7, 5, 10, [2]⟩).2 buf hbuf hle

/-- C1-counterexample: NoFork fails on the code as an unconditional invariant
of the reachable states.  First trace: the single validator of `vs100` casts
round-1 votes for block 7 and then for block 8 in slot 0 (an equivocation the
engine records without rejection) and both cross the fast quorum, leaving two
slot-0 certificates with different block ids.  Second trace: block 7
finalises in round 1, the round advances, and a round-2 vote for block 9
crosses the fallback quorum — two slot-0 certificates with different block
ids although no round-1 equivocation is recorded, which forces the amended
claim to be restricted to Round1 certificates. -/
theorem noFork_counterexample :
    Votor.Reachable vs100 votorEquiv ∧
    votorEquiv.finalized.map (fun c => (c.slot, c.block_id, c.round)) =
      [(0, 7, VoteRound.Round1), (0, 8, VoteRound.Round1)] ∧
    Votor.Reachable vs100 votorCrossRound ∧
    votorCrossRound.finalized.map (fun c => (c.slot, c.block_id, c.round)) =
      [(0, 7, VoteRound.Round1), (0, 9, VoteRound.Round2)] ∧
    votorCrossRound.noRound1Equivocation = true := by
  refine ⟨?_, by decide, ?_, by decide, by decide⟩
  · exact .vote _ _ (.vote _ _ .init)
  · exact .vote _ _ (.advance _ (.vote _ _ .init))

/-- The keys of a cons cell. -/
theorem keysA_cons {α : Type} (p : Nat × α) (rest : List (Nat × α)) :
    keysA (p :: rest) = p.1 :: keysA rest := rfl

/-- Inserting under a fresh head key walks past the head. -/
theorem insertA_cons_ne {α : Type} (pk k : Nat) (pv v : α) (rest : List (Nat × α))
    (hp : pk ≠ k) : insertA ((pk, pv) :: rest) k v = (pk, pv) :: insertA rest k v := by
  simp [insertA, hp]

/-- A successful lookup means the witnessing pair is in the list. -/
theorem lookupA_mem {α : Type} (m : List (Nat × α)) (k : Nat) (v : α)
    (h : lookupA m k = some v) : (k, v) ∈ m := by
  induction m with
  | nil => simp [lookupA] at h
  | cons p rest ih =>
    rcases p with ⟨pk, pv⟩
    by_cases hp : pk = k
    · subst hp
      have h2 : pv = v := by simpa [lookupA] using h
      subst h2
      exact List.mem_cons_self _ _
    · simp only [lookupA, if_neg hp] at h
      exact List.mem_cons_of_mem _ (ih h)

/-- A lookup succeeds exactly on the keys of the map. -/
theorem lookupA_isSome_iff {α : Type} (m : List (Nat × α)) (k : Nat) :
    (lookupA m k).isSome = true ↔ k ∈ keysA m := by
  induction m with
  | nil => simp [lookupA, keysA]
  | cons p rest ih =>
    rcases p with ⟨pk, pv⟩
    by_cases hp : pk = k
    · subst hp
      simp [lookupA, keysA]
    · have hkp : ¬ k = pk := fun h => hp h.symm
      rw [keysA_cons, List.mem_cons]
      simp only [lookupA, if_neg hp]
      rw [ih]
      simp [hkp]

/-- Inserting an existing key leaves the key list unchanged; a fresh key is
appended at the end. -/
theorem keysA_insertA {α : Type} (m : List (Nat × α)) (k : Nat) (v : α) :
    keysA (insertA m k v) = if k ∈ keysA m then keysA m else keysA m ++ [k] := by
  induction m with
  | nil => simp [insertA, keysA]
  | cons p rest ih =>
    rcases p with ⟨pk, pv⟩
    by_cases hp : pk = k
    · subst hp
      simp [insertA, keysA]
    · have hkp : ¬ k = pk := fun h => hp h.symm
      rw [insertA_cons_ne pk k pv v rest hp, keysA_cons, keysA_cons, ih]
      by_cases hk : k ∈ keysA rest
      · rw [if_pos hk, if_pos (List.mem_cons_of_mem _ hk)]
      · rw [if_neg hk, if_neg (by simp [hkp, hk])]
        simp

/-- Insertion preserves distinctness of the keys. -/
theorem keysA_insertA_nodup {α : Type} (m : List (Nat × α)) (k : Nat) (v : α)
    (h : (keysA m).Nodup) : (keysA (insertA m k v)).Nodup := by
  rw [keysA_insertA]
  by_cases hk : k ∈ keysA m
  · simpa [hk] using h
  · simp only [hk, if_false]
    simpa [List.nodup_append] using ⟨h, hk⟩

/-- Insertion never removes a key. -/
theorem mem_keysA_insertA {α : Type} (m : List (Nat × α)) (k : Nat) (v : α)
    (u : Nat) (h : u ∈ keysA m) : u ∈ keysA (insertA m k v) := by
  rw [keysA_insertA]
  by_cases hk : k ∈ keysA m
  · simpa [hk] using h
  · simp only [hk, if_false]
    exact List.mem_append_left _ h

/-- Every pair of the inserted map is an old pair or the new binding. -/
theorem mem_insertA {α : Type} (m : List (Nat × α)) (k : Nat) (v : α)
    (p : Nat × α) (h : p ∈ insertA m k v) : p ∈ m ∨ p = (k, v) := by
  induction m with
  | nil =>
    simp only [insertA, List.mem_singleton] at h
    exact Or.inr h
  | cons q rest ih =>
    rcases q with ⟨qk, qv⟩
    by_cases hq : qk = k
    · subst hq
      rw [show insertA ((qk, qv) :: rest) qk v = (qk, v) :: rest from by simp [insertA],
        List.mem_cons] at h
      rcases h with h | h
      · exact Or.inr h
      · exact Or.inl (List.mem_cons_of_mem _ h)
    · rw [insertA_cons_ne qk k qv v rest hq, List.mem_cons] at h
      rcases h with h | h
      · exact Or.inl (by simp [h])
      · rcases ih h with h1 | h1
        · exact Or.inl (List.mem_cons_of_mem _ h1)
        · exact Or.inr h1

/-- An unregistered id contributes no stake. -/
theorem stakeOfL_eq_zero (L : List (Nat × ValidatorConfig)) (u : Nat)
    (h : u ∉ keysA L) : stakeOfL L u = 0 := by
  unfold stakeOfL
  have : ¬ (lookupA L u).isSome = true := fun hs => h ((lookupA_isSome_iff L u).mp hs)
  cases hl : lookupA L u with
  | none => rfl
  | some c => exact absurd (by simp [hl]) this

/-- The wrapping stake fold agrees with the exact sum when the latter fits
in a `u64`. -/
theorem sumWrap_eq_sum (l : List Nat) (h : l.sum < U64LIM) : sumWrap l = l.sum := by
  have aux : ∀ (l : List Nat) (a : Nat), a + l.sum < U64LIM →
      l.foldl (fun a b => (a + b) % U64LIM) a = a + l.sum := by
    intro l
    induction l with
    | nil => intro a _; simp
    | cons x rest ih =>
      intro a ha
      simp only [List.foldl_cons, List.sum_cons] at ha ⊢
      have hx : (a + x) % U64LIM = a + x := Nat.mod_eq_of_lt (by omega)
      rw [hx, ih (a + x) (by omega)]
      omega
  have := aux l 0 (by omega)
  simpa [sumWrap] using this

/-- A `filterMap` whose function always succeeds is a `map`. -/
theorem filterMap_eq_map_of_some {α β : Type} (f : α → Option β) (g : α → β)
    (l : List α) (h : ∀ x ∈ l, f x = some (g x)) : l.filterMap f = l.map g := by
  induction l with
  | nil => simp
  | cons x rest ih =>
    rw [List.filterMap_cons, h x (List.mem_cons_self _ _), List.map_cons,
      ih (fun y hy => h y (List.mem_cons_of_mem _ hy))]

/-- Over distinct keys, summing `stakeOfL` over the key list is summing the
registered stakes. -/
theorem map_stakeOfL_keysA (L : List (Nat × ValidatorConfig))
    (h : (keysA L).Nodup) : (keysA L).map (stakeOfL L) = L.map (fun p => p.2.stake) := by
  induction L with
  | nil => simp [keysA]
  | cons p rest ih =>
    rcases p with ⟨pk, pv⟩
    have h2 : (pk :: keysA rest).Nodup := h
    have hk : pk ∉ keysA rest := (List.nodup_cons.mp h2).1
    have hrest : (keysA rest).Nodup := (List.nodup_cons.mp h2).2
    have hhead : stakeOfL ((pk, pv) :: rest) pk = pv.stake := by
      simp [stakeOfL, lookupA]
    have htail : (keysA rest).map (stakeOfL ((pk, pv) :: rest)) =
        (keysA rest).map (stakeOfL rest) := by
      apply List.map_congr_left
      intro u hu
      have hne : pk ≠ u := fun he => hk (he ▸ hu)
      simp [stakeOfL, lookupA, hne]
    rw [keysA_cons]
    simp only [List.map_cons]
    rw [hhead, htail, ih hrest]

/-- Summing `stakeOfL` over any distinct ids is bounded by the total
registered stake. -/
theorem sum_stakeOfL_le (L : List (Nat × ValidatorConfig)) (hL : (keysA L).Nodup)
    (K : List Nat) (hK : K.Nodup) :
    (K.map (stakeOfL L)).sum ≤ (L.map (fun p => p.2.stake)).sum := by
  classical
  have h1 : (K.map (stakeOfL L)).sum = K.toFinset.sum (stakeOfL L) :=
    (List.sum_toFinset _ hK).symm
  have h2 : K.toFinset.sum (stakeOfL L) ≤
      (K.toFinset ∪ (keysA L).toFinset).sum (stakeOfL L) :=
    Finset.sum_le_sum_of_subset Finset.subset_union_left
  have h3 : (keysA L).toFinset.sum (stakeOfL L) =
      (K.toFinset ∪ (keysA L).toFinset).sum (stakeOfL L) := by
    apply Finset.sum_subset Finset.subset_union_right
    intro x _ hnx
    exact stakeOfL_eq_zero L x (fun hm => hnx (List.mem_toFinset.mpr hm))
  have h4 : (keysA L).toFinset.sum (stakeOfL L) = ((keysA L).map (stakeOfL L)).sum :=
    List.sum_toFinset _ hL
  rw [h1, ← map_stakeOfL_keysA L hL, ← h4, h3]
  exact h2

/-- On a well-formed vote map over a well-formed validator set,
`calculate_vote_stake` computes the exact stake sum of the recorded voters,
which is bounded by the total stake (so the wrapping fold never wraps). -/
theorem calculate_vote_stake_eq (vs : ValidatorSet) (s : Votor)
    (hval : s.validator_set = vs) (hwf : vs.WF)
    (m : List (Nat × Vote)) (hm : MapOK vs m) :
    s.calculate_vote_stake m = ((keysA m).map (stakeOfL vs.validators)).sum ∧
    s.calculate_vote_stake m ≤ vs.total_stake := by
  classical
  have hsome : ∀ p ∈ m, lookupA vs.validators p.1 =
      some ((lookupA vs.validators p.1).getD ⟨0, 0, false, false⟩) := by
    intro p hp
    have hs := (hm.2 p hp).2
    cases hl : lookupA vs.validators p.1 with
    | none => rw [hl] at hs; cases hs
    | some c => simp [hl]
  have h1 : m.filterMap (fun p => vs.get_validator p.1) =
      m.map (fun p => (lookupA vs.validators p.1).getD ⟨0, 0, false, false⟩) := by
    apply filterMap_eq_map_of_some
    intro p hp
    simpa [ValidatorSet.get_validator] using hsome p hp
  have h2 : (m.map (fun p => (lookupA vs.validators p.1).getD ⟨0, 0, false, false⟩)).map
      (·.stake) = (keysA m).map (stakeOfL vs.validators) := by
    unfold keysA
    rw [List.map_map, List.map_map]
    apply List.map_congr_left
    intro p hp
    have := hsome p hp
    simp only [Function.comp]
    unfold stakeOfL
    rw [this]
    simp
  have htot : vs.total_stake < U64LIM := by
    have h80 : vs.total_stake ≤ vs.total_stake * 80 :=
      Nat.le_mul_of_pos_right _ (by omega)
    exact lt_of_le_of_lt h80 hwf.2.2
  have hle : ((keysA m).map (stakeOfL vs.validators)).sum ≤ vs.total_stake := by
    rw [hwf.2.1]
    exact sum_stakeOfL_le vs.validators hwf.1 (keysA m) hm.1
  have heq : s.calculate_vote_stake m =
      ((keysA m).map (stakeOfL vs.validators)).sum := by
    unfold Votor.calculate_vote_stake
    rw [hval, h1, h2]
    exact sumWrap_eq_sum _ (lt_of_le_of_lt hle htot)
  exact ⟨heq, heq ▸ hle⟩

/-- `CertOK` is preserved when every vote map only grows. -/
theorem CertOK_mono (vs : ValidatorSet) (s s' : Votor) (c : FinalizationCertificate)
    (hmono : ∀ b w, lookupA s.vote_sets b = some w →
      ∃ w', lookupA s'.vote_sets b = some w' ∧
        ∀ u, u ∈ keysA w.round1_votes → u ∈ keysA w'.round1_votes)
    (h : CertOK vs s c) : CertOK vs s' c := by
  obtain ⟨w, hw, hsub, hnd, hst, hq⟩ := h
  obtain ⟨w', hw', hkeys⟩ := hmono _ _ hw
  exact ⟨w', hw', fun u hu => hkeys u (hsub u hu), hnd, hst, hq⟩

/-- Inserting a registered vote under its own validator keeps a vote map
well-formed. -/
theorem MapOK_insert (vs : ValidatorSet) (m : List (Nat × Vote)) (v : Vote)
    (hm : MapOK vs m) (hreg : (lookupA vs.validators v.validator).isSome = true) :
    MapOK vs (insertA m v.validator v) := by
  refine ⟨keysA_insertA_nodup _ _ _ hm.1, ?_⟩
  intro p hp
  rcases mem_insertA _ _ _ _ hp with h | h
  · exact hm.2 p h
  · subst h
    exact ⟨rfl, hreg⟩

/-- The invariant holds in the initial Votor state. -/
theorem VotorInv_init (vs : ValidatorSet) : VotorInv vs (Votor.new vs) := by
  refine ⟨rfl, ?_, ?_⟩
  · intro b vset h
    simp [Votor.new, lookupA] at h
  · intro c hc
    simp [Votor.new] at hc

/-- The invariant is preserved by `check_finalization`. -/
theorem VotorInv_check_finalization (vs : ValidatorSet) (s : Votor) (b slot : Nat)
    (hwf : vs.WF) (hinv : VotorInv vs s) :
    VotorInv vs (s.check_finalization b slot).1 := by
  unfold Votor.check_finalization
  cases hb : lookupA s.vote_sets b with
  | none => exact hinv
  | some vset =>
    by_cases hfast : s.validator_set.check_fast_quorum
        (s.calculate_vote_stake vset.round1_votes) = true
    · simp only [hfast, if_true]
      refine ⟨hinv.1, fun b' w hw => hinv.2.1 b' w hw, ?_⟩
      intro c hc hr
      rcases List.mem_append.mp hc with hc | hc
      · exact hinv.2.2 c hc hr
      · rw [List.mem_singleton] at hc
        subst hc
        have hmap := (hinv.2.1 b vset hb).1
        have hcalc := calculate_vote_stake_eq vs s hinv.1 hwf vset.round1_votes hmap
        have hvoters : certVoters (s.create_certificate b slot .Round1 vset.round1_votes
            (s.calculate_vote_stake vset.round1_votes)) = keysA vset.round1_votes := by
          unfold certVoters Votor.create_certificate keysA
          rw [List.map_map]
          apply List.map_congr_left
          intro p hp
          exact (hmap.2 p hp).1
        refine ⟨vset, hb, ?_, ?_, ?_, ?_⟩
        · rw [hvoters]
          exact fun u hu => hu
        · rw [hvoters]
          exact hmap.1
        · rw [hvoters]
          exact hcalc.1
        · have hthr := hfast
          unfold ValidatorSet.check_fast_quorum at hthr
          rw [decide_eq_true_eq, hinv.1, Nat.mod_eq_of_lt hwf.2.2] at hthr
          exact hthr
    · simp only [Bool.not_eq_true] at hfast
      simp only [hfast, Bool.false_eq_true, if_false]
      by_cases hr2 : s.current_round = VoteRound.Round2
      · simp only [hr2, if_true]
        by_cases hfb : s.validator_set.check_fallback_quorum
            (s.calculate_vote_stake vset.round2_votes) = true
        · simp only [hfb, if_true]
          refine ⟨hinv.1, fun b' w hw => hinv.2.1 b' w hw, ?_⟩
          intro c hc hr
          rcases List.mem_append.mp hc with hc | hc
          · exact hinv.2.2 c hc hr
          · rw [List.mem_singleton] at hc
            subst hc
            simp [Votor.create_certificate] at hr
        · simp only [Bool.not_eq_true] at hfb
          simp only [hfb, Bool.false_eq_true, if_false]
          exact hinv
      · simp only [hr2, if_false]
        exact hinv

/-- The invariant is preserved by `process_vote`. -/
theorem VotorInv_process_vote (vs : ValidatorSet) (s : Votor) (v : Vote)
    (hwf : vs.WF) (hinv : VotorInv vs s) : VotorInv vs (s.process_vote v).1 := by
  unfold Votor.process_vote
  cases hval : s.validate_vote v with
  | error e => exact hinv
  | ok u =>
    have hreg : (lookupA vs.validators v.validator).isSome = true := by
      unfold Votor.validate_vote at hval
      by_cases hn : (s.validator_set.get_validator v.validator).isNone = true
      · rw [if_pos hn] at hval
        cases hval
      · unfold ValidatorSet.get_validator at hn
        rw [hinv.1] at hn
        cases hl : lookupA vs.validators v.validator with
        | none => rw [hl] at hn; exact absurd rfl hn
        | some c => rfl
    cases hlook : lookupA s.vote_sets v.block_id with
    | some vs0 =>
      have hmaps := hinv.2.1 v.block_id vs0 hlook
      cases hvr : v.round with
      | Round1 =>
        by_cases hdbl : containsA vs0.round1_votes v.validator = true
        · simp only [hvr, hdbl, if_true]
          exact hinv
        · simp only [Bool.not_eq_true] at hdbl
          simp only [hvr, hdbl, Bool.false_eq_true, if_false]
          apply VotorInv_check_finalization vs _ _ _ hwf
          have hadd : vs0.add_vote v =
              { vs0 with round1_votes := insertA vs0.round1_votes v.validator v } := by
            unfold VoteSet.add_vote
            rw [hvr]
          refine ⟨hinv.1, ?_, ?_⟩
          · intro b' w hw
            by_cases hb' : b' = v.block_id
            · subst hb'
              rw [lookupA_insertA_self] at hw
              cases hw
              rw [hadd]
              refine ⟨MapOK_insert vs _ v hmaps.1 hreg, hmaps.2⟩
            · rw [lookupA_insertA_ne _ _ _ _ hb'] at hw
              exact hinv.2.1 b' w hw
          · intro c hc hr
            apply CertOK_mono vs s _ c ?_ (hinv.2.2 c hc hr)
            intro b' w hw
            by_cases hb' : b' = v.block_id
            · subst hb'
              rw [hlook] at hw
              cases hw
              refine ⟨vs0.add_vote v, lookupA_insertA_self _ _ _, ?_⟩
              intro x hx
              rw [hadd]
              exact mem_keysA_insertA _ _ _ _ hx
            · exact ⟨w, by rw [lookupA_insertA_ne _ _ _ _ hb']; exact hw, fun x hx => hx⟩
      | Round2 =>
        by_cases hdbl : containsA vs0.round2_votes v.validator = true
        · simp only [hvr, hdbl, if_true]
          exact hinv
        · simp only [Bool.not_eq_true] at hdbl
          simp only [hvr, hdbl, Bool.false_eq_true, if_false]
          apply VotorInv_check_finalization vs _ _ _ hwf
          have hadd : vs0.add_vote v =
              { vs0 with round2_votes := insertA vs0.round2_votes v.validator v } := by
            unfold VoteSet.add_vote
            rw [hvr]
          refine ⟨hinv.1, ?_, ?_⟩
          · intro b' w hw
            by_cases hb' : b' = v.block_id
            · subst hb'
              rw [lookupA_insertA_self] at hw
              cases hw
              rw [hadd]
              refine ⟨hmaps.1, MapOK_insert vs _ v hmaps.2 hreg⟩
            · rw [lookupA_insertA_ne _ _ _ _ hb'] at hw
              exact hinv.2.1 b' w hw
          · intro c hc hr
            apply CertOK_mono vs s _ c ?_ (hinv.2.2 c hc hr)
            intro b' w hw
            by_cases hb' : b' = v.block_id
            · subst hb'
              rw [hlook] at hw
              cases hw
              refine ⟨vs0.add_vote v, lookupA_insertA_self _ _ _, ?_⟩
              intro x hx
              rw [hadd]
              exact hx
            · exact ⟨w, by rw [lookupA_insertA_ne _ _ _ _ hb']; exact hw, fun x hx => hx⟩
    | none =>
      cases hvr : v.round with
      | Round1 =>
        simp only [hvr]
        rw [show containsA (VoteSet.new v.block_id).round1_votes v.validator = false from rfl]
        simp only [Bool.false_eq_true, if_false]
        apply VotorInv_check_finalization vs _ _ _ hwf
        have hadd : (VoteSet.new v.block_id).add_vote v =
            ⟨v.block_id, [(v.validator, v)], []⟩ := by
          unfold VoteSet.add_vote VoteSet.new
          rw [hvr]
          simp [insertA]
        refine ⟨hinv.1, ?_, ?_⟩
        · intro b' w hw
          by_cases hb' : b' = v.block_id
          · subst hb'
            rw [lookupA_insertA_self] at hw
            cases hw
            rw [hadd]
            constructor
            · exact ⟨by simp [keysA], by intro p hp; simp at hp; subst hp; exact ⟨rfl, hreg⟩⟩
            · exact ⟨by simp [keysA], by intro p hp; simp at hp⟩
          · rw [lookupA_insertA_ne _ _ _ _ hb', lookupA_insertA_ne _ _ _ _ hb'] at hw
            exact hinv.2.1 b' w hw
        · intro c hc hr
          apply CertOK_mono vs s _ c ?_ (hinv.2.2 c hc hr)
          intro b' w hw
          by_cases hb' : b' = v.block_id
          · subst hb'
            rw [hlook] at hw
            cases hw
          · refine ⟨w, ?_, fun x hx => hx⟩
            rw [lookupA_insertA_ne _ _ _ _ hb', lookupA_insertA_ne _ _ _ _ hb']
            exact hw
      | Round2 =>
        simp only [hvr]
        rw [show containsA (VoteSet.new v.block_id).round2_votes v.validator = false from rfl]
        simp only [Bool.false_eq_true, if_false]
        apply VotorInv_check_finalization vs _ _ _ hwf
        have hadd : (VoteSet.new v.block_id).add_vote v =
            ⟨v.block_id, [], [(v.validator, v)]⟩ := by
          unfold VoteSet.add_vote VoteSet.new
          rw [hvr]
          simp [insertA]
        refine ⟨hinv.1, ?_, ?_⟩
        · intro b' w hw
          by_cases hb' : b' = v.block_id
          · subst hb'
            rw [lookupA_insertA_self] at hw
            cases hw
            rw [hadd]
            constructor
            · exact ⟨by simp [keysA], by intro p hp; simp at hp⟩
            · exact ⟨by simp [keysA], by intro p hp; simp at hp; subst hp; exact ⟨rfl, hreg⟩⟩
          · rw [lookupA_insertA_ne _ _ _ _ hb', lookupA_insertA_ne _ _ _ _ hb'] at hw
            exact hinv.2.1 b' w hw
        · intro c hc hr
          apply CertOK_mono vs s _ c ?_ (hinv.2.2 c hc hr)
          intro b' w hw
          by_cases hb' : b' = v.block_id
          · subst hb'
            rw [hlook] at hw
            cases hw
          · refine ⟨w, ?_, fun x hx => hx⟩
            rw [lookupA_insertA_ne _ _ _ _ hb', lookupA_insertA_ne _ _ _ _ hb']
            exact hw

/-- The invariant holds in every reachable Votor state. -/
theorem VotorInv_reachable (vs : ValidatorSet) (s : Votor) (hwf : vs.WF)
    (h : Votor.Reachable vs s) : VotorInv vs s := by
  induction h with
  | init => exact VotorInv_init vs
  | vote s' v _ ih => exact VotorInv_process_vote vs s' v hwf ih
  | advance s' _ ih => exact ih
  | next s' _ ih => exact ih

/-- C1-amended: NoFork for Round1 certificates in the absence of recorded
round-1 equivocation.  In every reachable Votor state over a well-formed
validator set with total stake at least 3, if no validator has round-1 votes
recorded under two distinct block ids, then any two *Round1* certificates in
the finalised list (in particular any two with the same slot) name the same
block id.  The restrictions are forced by the counterexample: an
equivocating validator forks two Round1 certificates, and a fallback
(Round2) certificate can fork against a Round1 certificate with no round-1
equivocation at all since 60% + 80% > 100% requires only a shared voter
across rounds, which the protocol permits. -/
theorem noFork_round1_no_equivocation (vs : ValidatorSet) (s : Votor)
    (hwf : vs.WF) (hreach : Votor.Reachable vs s) (hS : 3 ≤ vs.total_stake)
    (hnoeq : s.noRound1Equivocation = true)
    (c1 c2 : FinalizationCertificate) (h1 : c1 ∈ s.finalized) (h2 : c2 ∈ s.finalized)
    (hr1 : c1.round = VoteRound.Round1) (hr2 : c2.round = VoteRound.Round1)
    (hslot : c1.slot = c2.slot) : c1.block_id = c2.block_id := by
  by_contra hne
  have hinv := VotorInv_reachable vs s hwf hreach
  obtain ⟨w1, hw1, hsub1, hnd1, hst1, hq1⟩ := hinv.2.2 c1 h1 hr1
  obtain ⟨w2, hw2, hsub2, hnd2, hst2, hq2⟩ := hinv.2.2 c2 h2 hr2
  have hne12 : ∀ u, u ∈ keysA w1.round1_votes → u ∈ keysA w2.round1_votes → False := by
    intro u hu1 hu2
    have hp1 : (c1.block_id, w1) ∈ s.vote_sets := lookupA_mem _ _ _ hw1
    have hp2 : (c2.block_id, w2) ∈ s.vote_sets := lookupA_mem _ _ _ hw2
    have hq := hnoeq
    unfold Votor.noRound1Equivocation at hq
    rw [List.all_eq_true] at hq
    have hqq := hq _ hp1
    rw [List.all_eq_true] at hqq
    have hqq2 := hqq _ hp2
    rw [Bool.or_eq_true] at hqq2
    rcases hqq2 with hqq2 | hqq2
    · exact hne (by simpa using hqq2)
    · rw [List.all_eq_true] at hqq2
      have hfalse := hqq2 u hu1
      have hc : containsA w2.round1_votes u = true := (lookupA_isSome_iff _ _).mpr hu2
      rw [hc] at hfalse
      simp at hfalse
  have hdisj : List.Disjoint (certVoters c1) (certVoters c2) := by
    intro u hu1 hu2
    exact hne12 u (hsub1 u hu1) (hsub2 u hu2)
  have hnodup : (certVoters c1 ++ certVoters c2).Nodup :=
    List.nodup_append.mpr ⟨hnd1, hnd2, hdisj⟩
  have hsum := sum_stakeOfL_le vs.validators hwf.1 _ hnodup
  rw [List.map_append, List.sum_append, ← hst1, ← hst2, ← hwf.2.1] at hsum
  omega

/-- C1-witness: the amended theorem applied to the concrete reachable state
`votorFast` (one validator of stake 100, one Round1 certificate for block 7
at slot 0, no equivocation recorded). -/
theorem noFork_round1_no_equivocation_witness :
    vs100.WF ∧ 3 ≤ vs100.total_stake ∧ votorFast.noRound1Equivocation = true ∧
    certFast ∈ votorFast.finalized ∧ certFast.round = VoteRound.Round1 ∧
    certFast.block_id = certFast.block_id := by
  refine ⟨⟨by decide, by decide, by decide⟩, by decide, by decide, by decide, by decide, ?_⟩
  exact noFork_round1_no_equivocation vs100 votorFast
    ⟨by decide, by decide, by decide⟩ (.vote _ _ .init) (by decide) (by decide)
    certFast certFast (by decide) (by decide) (by decide) (by decide) rfl

/-- C6-amended: the reconstruction policy of `try_reconstruct_block` for a
block-id whose block is not yet cached and whose buffer has N slots:
reconstruction is attempted exactly when at least ⌊0.8·N⌋ = (N·80)/100 slots
are non-empty (the floor, not the ceiling, of 0.8·N); below that the call
returns Ok(None); at or above it the present shreds are concatenated in
index order and deserialised — a deserialisation failure yields the
ErasureCodingFailed error — and the decoded block's id is verified to equal
the buffer key, failing with InvalidShred on mismatch and caching the block
on success. -/
theorem reconstruction_policy (r : Rotor) (bid : Nat) (buf : List (Option Shred))
    (hnb : lookupA r.reconstructed_blocks bid = none)
    (hbuf : lookupA r.received_shreds bid = some buf) :
    ((buf.filter (·.isSome)).length < buf.length * 80 / 100 →
      r.try_reconstruct_block bid = (r, .ok none)) ∧
    (buf.length * 80 / 100 ≤ (buf.filter (·.isSome)).length →
      deserializeBlock (((buf.filterMap id).map (·.data)).flatten) = none →
      r.try_reconstruct_block bid = (r, .error .ErasureCodingFailed)) ∧
    (∀ blk, buf.length * 80 / 100 ≤ (buf.filter (·.isSome)).length →
      deserializeBlock (((buf.filterMap id).map (·.data)).flatten) = some blk →
      blk.id = bid →
      r.try_reconstruct_block bid =
        ({ r with reconstructed_blocks := insertA r.reconstructed_blocks bid blk },
         .ok (some blk))) ∧
    (∀ blk, buf.length * 80 / 100 ≤ (buf.filter (·.isSome)).length →
      deserializeBlock (((buf.filterMap id).map (·.data)).flatten) = some blk →
      blk.id ≠ bid →
      r.try_reconstruct_block bid = (r, .error .InvalidShred)) := by
  refine ⟨fun hlt => ?_, fun hge hdes => ?_, fun blk hge hdes hid => ?_,
    fun blk hge hdes hid => ?_⟩
  · simp only [Rotor.try_reconstruct_block, hnb, hbuf]
    rw [if_pos hlt]
  · simp only [Rotor.try_reconstruct_block, hnb, hbuf]
    rw [if_neg (by omega), hdes]
  · simp only [Rotor.try_reconstruct_block, hnb, hbuf]
    rw [if_neg (by omega), hdes]
    simp only [hid, if_pos]
  · simp only [Rotor.try_reconstruct_block, hnb, hbuf]
    rw [if_neg (by omega), hdes]
    dsimp only
    rw [if_neg hid]

/-- C6-witness: the amended policy applied to a concrete Rotor holding one of
three announced shreds for block 7 — one present slot is below the floor
threshold (3·80)/100 = 2, so the call returns Ok(None). -/
theorem reconstruction_policy_witness :
    lookupA ((Rotor.new vs100).receive_shred ⟨7, 0, 3, [9]⟩).1.reconstructed_blocks 7 =
      none ∧
    lookupA ((Rotor.new vs100).receive_shred ⟨7, 0, 3, [9]⟩).1.received_shreds 7 =
      some [some ⟨7, 0, 3, [9]⟩, none, none] ∧
    (([some ⟨7, 0, 3, [9]⟩, none, none] :
        List (Option Shred)).filter (·.isSome)).length <
      ([some ⟨7, 0, 3, [9]⟩, none, none] : List (Option Shred)).length * 80 / 100 ∧
    (((Rotor.new vs100).receive_shred ⟨7, 0, 3, [9]⟩).1.try_reconstruct_block 7 =
      (((Rotor.new vs100).receive_shred ⟨7, 0, 3, [9]⟩).1, .ok none)) := by
  refine ⟨by decide, by decide, by decide, ?_⟩
  exact (reconstruction_policy _ 7 [some ⟨7, 0, 3, [9]⟩, none, none]
    (by decide) (by decide)).1 (by decide)

/-- C6-counterexample: the threshold is the floor, not the ceiling, of 0.8·N.
A single shred announcing 2 total shreds and carrying a full serialised
block is received into a fresh Rotor: only 1 of 2 slots is filled, which is
below ⌈0.8·2⌉ = 2 — the claim demands Ok(None) — yet the code's floor
threshold (2·80)/100 = 1 is met, reconstruction runs and the call returns
Ok(Some block). -/
theorem reconstruction_threshold_counterexample :
    ((Rotor.new ValidatorSet.new).receive_shred
        ⟨5, 0, 2, serializeBlock ⟨5, 0, none, 0, [], 0⟩⟩).2 =
      .ok (some ⟨5, 0, none, 0, [], 0⟩) ∧
    2 * 80 / 100 = 1 ∧ (2 * 80 + 99) / 100 = 2 := by
  refine ⟨rfl, by decide, by decide⟩

/-- The fixed-width encoding has its advertised width. -/
theorem length_encLE (w v : Nat) : (encLE w v).length = w := by
  induction w generalizing v with
  | zero => rfl
  | succ w ih => simp [encLE, ih]

/-- Little-endian decoding inverts encoding below the width bound. -/
theorem dec_encLE (w v : Nat) (h : v < 256 ^ w) : decLE (encLE w v) = v := by
  induction w generalizing v with
  | zero =>
    simp [Nat.pow_zero] at h
    simp [encLE, decLE, h]
  | succ w ih =>
    have hlt : v / 256 < 256 ^ w := by
      rw [Nat.div_lt_iff_lt_mul (by omega)]
      calc v < 256 ^ (w + 1) := h
        _ = 256 ^ w * 256 := by rw [Nat.pow_succ]
    have : decLE (encLE (w + 1) v) = v % 256 + 256 * decLE (encLE w (v / 256)) := rfl
    rw [this, ih (v / 256) hlt]
    omega

/-- `parseBytes` consumes an exact-length prefix. -/
theorem parseBytes_exact (x r : List Nat) :
    parseBytes x.length (x ++ r) = some (x, r) := by
  unfold parseBytes
  rw [if_pos (by simp)]
  rw [List.take_left, List.drop_left]

/-- `parseBytes` is insensitive to extra trailing bytes. -/
theorem parseBytes_mono (n : Nat) (l t v r : List Nat)
    (h : parseBytes n l = some (v, r)) :
    parseBytes n (l ++ t) = some (v, r ++ t) := by
  unfold parseBytes at h ⊢
  by_cases hn : n ≤ l.length
  · rw [if_pos hn] at h
    rw [if_pos (by simp; omega)]
    obtain ⟨hv, hr⟩ := Prod.mk.injEq .. ▸ (Option.some.injEq .. ▸ h)
    subst hv
    subst hr
    rw [List.take_append_eq_append_take, List.drop_append_eq_append_drop]
    have h0 : n - l.length = 0 := by omega
    simp [h0]
  · rw [if_neg hn] at h
    cases h

/-- Round-trip for the optional parent id. -/
theorem parseOptId_enc (po : Option Nat) (r : List Nat) (h : ∀ p ∈ po, p < IDLIM) :
    parseOptId (encOptId po ++ r) = some (po, r) := by
  cases po with
  | none => rfl
  | some p =>
    have hlen : (encLE 32 p).length = 32 := length_encLE 32 p
    have hmatch : parseOptId ((1 :: encLE 32 p) ++ r) =
        match parseBytes 32 (encLE 32 p ++ r) with
        | some (bs, rr) => some (some (decLE bs), rr)
        | none => none := rfl
    have hpb : parseBytes 32 (encLE 32 p ++ r) = some (encLE 32 p, r) := by
      have hx := parseBytes_exact (encLE 32 p) r
      rwa [hlen] at hx
    rw [show encOptId (some p) ++ r = (1 :: encLE 32 p) ++ r from rfl, hmatch, hpb]
    dsimp only
    have hp : p < 256 ^ 32 := by
      have := h p rfl
      unfold IDLIM at this
      omega
    rw [dec_encLE 32 p hp]

/-- `parseOptId` is insensitive to extra trailing bytes. -/
theorem parseOptId_mono (l t : List Nat) (v : Option Nat) (r : List Nat)
    (h : parseOptId l = some (v, r)) :
    parseOptId (l ++ t) = some (v, r ++ t) := by
  cases l with
  | nil => cases h
  | cons d rest =>
    rcases d with _ | _ | d
    · have h2 : some ((none : Option Nat), rest) = some (v, r) := h
      obtain ⟨hv, hr⟩ := Prod.mk.injEq .. ▸ (Option.some.injEq .. ▸ h2)
      subst hv
      subst hr
      rfl
    · have h2 : (match parseBytes 32 rest with
          | some (bs, rr) => some (some (decLE bs), rr)
          | none => none) = some (v, r) := h
      show (match parseBytes 32 (rest ++ t) with
          | some (bs, rr) => some (some (decLE bs), rr)
          | none => none) = some (v, r ++ t)
      cases hb : parseBytes 32 rest with
      | none => rw [hb] at h2; cases h2
      | some p =>
        rcases p with ⟨bs, rr⟩
        rw [hb] at h2
        rw [parseBytes_mono 32 rest t bs rr hb]
        obtain ⟨hv, hr⟩ := Prod.mk.injEq .. ▸ (Option.some.injEq .. ▸ h2)
        subst hv
        subst hr
        rfl
    · exact absurd (show (none : Option (Option Nat × List Nat)) = some (v, r) from h)
        (by simp)

/-- Round-trip for the transaction list. -/
theorem parseTxs_enc (txs : List (List Nat)) (r : List Nat)
    (h : ∀ tx ∈ txs, tx.length < U64LIM) :
    parseTxs txs.length ((txs.map encBytes).flatten ++ r) = some (txs, r) := by
  induction txs generalizing r with
  | nil => rfl
  | cons tx rest ih =>
    have hlen8 : (encLE 8 tx.length).length = 8 := length_encLE ..
    have hdec : decLE (encLE 8 tx.length) = tx.length := by
      apply dec_encLE
      have := h tx (List.mem_cons_self _ _)
      unfold U64LIM at this
      omega
    have hassoc : ((tx :: rest).map encBytes).flatten ++ r =
        encLE 8 tx.length ++ (tx ++ ((rest.map encBytes).flatten ++ r)) := by
      simp [encBytes, List.append_assoc]
    have hpb8 : parseBytes 8 (encLE 8 tx.length ++
        (tx ++ ((rest.map encBytes).flatten ++ r))) =
        some (encLE 8 tx.length, tx ++ ((rest.map encBytes).flatten ++ r)) := by
      have hx := parseBytes_exact (encLE 8 tx.length)
        (tx ++ ((rest.map encBytes).flatten ++ r))
      rwa [hlen8] at hx
    rw [show (tx :: rest).length = rest.length + 1 from rfl]
    unfold parseTxs
    rw [hassoc, hpb8]
    dsimp only
    rw [hdec, parseBytes_exact tx]
    dsimp only
    rw [ih r (fun x hx => h x (List.mem_cons_of_mem _ hx))]

/-- `parseTxs` is insensitive to extra trailing bytes. -/
theorem parseTxs_mono (n : Nat) (l t : List Nat) (v : List (List Nat)) (r : List Nat)
    (h : parseTxs n l = some (v, r)) :
    parseTxs n (l ++ t) = some (v, r ++ t) := by
  induction n generalizing l v r with
  | zero =>
    unfold parseTxs at h ⊢
    obtain ⟨hv, hr⟩ := Prod.mk.injEq .. ▸ (Option.some.injEq .. ▸ h)
    subst hv
    subst hr
    rfl
  | succ n ih =>
    unfold parseTxs at h ⊢
    cases h8 : parseBytes 8 l with
    | none => rw [h8] at h; cases h
    | some p =>
      rcases p with ⟨lenb, l1⟩
      rw [h8] at h
      rw [parseBytes_mono 8 l t lenb l1 h8]
      dsimp only at h ⊢
      cases htx : parseBytes (decLE lenb) l1 with
      | none => simp only [htx] at h; cases h
      | some q =>
        rcases q with ⟨tx, l2⟩
        simp only [htx] at h
        rw [parseBytes_mono _ l1 t tx l2 htx]
        dsimp only at h ⊢
        cases hrec : parseTxs n l2 with
        | none => simp only [hrec] at h; cases h
        | some w =>
          rcases w with ⟨txs, l3⟩
          simp only [hrec] at h
          rw [ih l2 txs l3 hrec]
          obtain ⟨hv, hr⟩ := Prod.mk.injEq .. ▸ (Option.some.injEq .. ▸ h)
          subst hv
          subst hr
          rfl

/-- `parseBytes` inverts a fixed-width encode at its advertised width. -/
theorem parseBytes_enc (w v : Nat) (r : List Nat) :
    parseBytes w (encLE w v ++ r) = some (encLE w v, r) := by
  have hx := parseBytes_exact (encLE w v) r
  rwa [length_encLE] at hx

/-- The `u64` modulus is the 8-byte modulus. -/
theorem U64LIM_eq : U64LIM = 256 ^ 8 := by decide

/-- The block-id modulus is the 32-byte modulus. -/
theorem IDLIM_eq : IDLIM = 256 ^ 32 := by decide

/-- Round-trip: parsing a serialised well-formed block returns the block and
leaves exactly the trailing bytes. -/
theorem parseBlock_enc (b : Block) (r : List Nat) (hwf : BlockWF b) :
    parseBlock (serializeBlock b ++ r) = some (b, r) := by
  obtain ⟨hid, hslot, hpar, hlead, hntx, htx, hts⟩ := hwf
  have hassoc : serializeBlock b ++ r =
      encLE 32 b.id ++ (encLE 8 b.slot ++ (encOptId b.parent ++ (encLE 8 b.leader ++
        (encLE 8 b.transactions.length ++ ((b.transactions.map encBytes).flatten ++
          (encLE 8 b.timestamp ++ r)))))) := by
    simp [serializeBlock, List.append_assoc]
  rw [hassoc]
  unfold parseBlock
  rw [parseBytes_enc 32 b.id]
  dsimp only
  rw [parseBytes_enc 8 b.slot]
  dsimp only
  rw [parseOptId_enc b.parent _ hpar]
  dsimp only
  rw [parseBytes_enc 8 b.leader]
  dsimp only
  rw [parseBytes_enc 8 b.transactions.length]
  dsimp only
  rw [dec_encLE 8 b.transactions.length (by rw [← U64LIM_eq]; exact hntx)]
  rw [parseTxs_enc b.transactions _ htx]
  dsimp only
  rw [parseBytes_enc 8 b.timestamp]
  dsimp only
  rw [dec_encLE 32 b.id (by rw [← IDLIM_eq]; exact hid),
    dec_encLE 8 b.slot (by rw [← U64LIM_eq]; exact hslot),
    dec_encLE 8 b.leader (by rw [← U64LIM_eq]; exact hlead),
    dec_encLE 8 b.timestamp (by rw [← U64LIM_eq]; exact hts)]

/-- `parseBlock` is insensitive to extra trailing bytes. -/
theorem parseBlock_mono (l t : List Nat) (v : Block) (r : List Nat)
    (h : parseBlock l = some (v, r)) :
    parseBlock (l ++ t) = some (v, r ++ t) := by
  unfold parseBlock at h ⊢
  cases h1 : parseBytes 32 l with
  | none => rw [h1] at h; cases h
  | some p1 =>
    rcases p1 with ⟨idb, l1⟩
    rw [h1] at h
    rw [parseBytes_mono 32 l t idb l1 h1]
    dsimp only at h ⊢
    cases h2 : parseBytes 8 l1 with
    | none => rw [h2] at h; cases h
    | some p2 =>
      rcases p2 with ⟨slotb, l2⟩
      rw [h2] at h
      rw [parseBytes_mono 8 l1 t slotb l2 h2]
      dsimp only at h ⊢
      cases h3 : parseOptId l2 with
      | none => rw [h3] at h; cases h
      | some p3 =>
        rcases p3 with ⟨par, l3⟩
        rw [h3] at h
        rw [parseOptId_mono l2 t par l3 h3]
        dsimp only at h ⊢
        cases h4 : parseBytes 8 l3 with
        | none => rw [h4] at h; cases h
        | some p4 =>
          rcases p4 with ⟨leadb, l4⟩
          rw [h4] at h
          rw [parseBytes_mono 8 l3 t leadb l4 h4]
          dsimp only at h ⊢
          cases h5 : parseBytes 8 l4 with
          | none => rw [h5] at h; cases h
          | some p5 =>
            rcases p5 with ⟨ntxb, l5⟩
            rw [h5] at h
            rw [parseBytes_mono 8 l4 t ntxb l5 h5]
            dsimp only at h ⊢
            cases h6 : parseTxs (decLE ntxb) l5 with
            | none => rw [h6] at h; cases h
            | some p6 =>
              rcases p6 with ⟨txs, l6⟩
              rw [h6] at h
              rw [parseTxs_mono (decLE ntxb) l5 t txs l6 h6]
              dsimp only at h ⊢
              cases h7 : parseBytes 8 l6 with
              | none => rw [h7] at h; cases h
              | some p7 =>
                rcases p7 with ⟨tsb, l7⟩
                rw [h7] at h
                rw [parseBytes_mono 8 l6 t tsb l7 h7]
                dsimp only at h ⊢
                obtain ⟨hv, hr⟩ := Prod.mk.injEq .. ▸ (Option.some.injEq .. ▸ h)
                subst hv
                subst hr
                rfl

/-- A strict prefix of a serialised well-formed block never parses. -/
theorem parseBlock_take_none (b : Block) (hwf : BlockWF b) (p : Nat)
    (hp : p < (serializeBlock b).length) :
    parseBlock ((serializeBlock b).take p) = none := by
  cases hres : parseBlock ((serializeBlock b).take p) with
  | none => rfl
  | some w =>
    rcases w with ⟨v, r⟩
    exfalso
    have hsplit : (serializeBlock b).take p ++ (serializeBlock b).drop p =
        serializeBlock b := List.take_append_drop ..
    have hmono := parseBlock_mono _ ((serializeBlock b).drop p) v r hres
    rw [hsplit] at hmono
    have hfull : parseBlock (serializeBlock b) = some (b, []) := by
      have hx := parseBlock_enc b [] hwf
      rwa [List.append_nil] at hx
    rw [hfull] at hmono
    obtain ⟨hv, hr⟩ := Prod.mk.injEq .. ▸ (Option.some.injEq .. ▸ hmono)
    have hnil : (serializeBlock b).drop p = [] := (List.append_eq_nil.mp hr.symm).2
    have := List.drop_eq_nil_iff_le.mp hnil
    omega

/-- A serialised block is never empty. -/
theorem serializeBlock_length_pos (b : Block) : 1 ≤ (serializeBlock b).length := by
  unfold serializeBlock
  simp only [List.length_append, length_encLE]
  omega

/-- `chunksOf` on the empty list. -/
theorem chunksOf_nil (k : Nat) : chunksOf k [] = [] := by
  rw [chunksOf]
  simp

/-- `chunksOf` unfolding on a non-empty list with positive chunk size. -/
theorem chunksOf_cons (k : Nat) (l : List Nat) (hk : 1 ≤ k) (hl : l ≠ []) :
    chunksOf k l = l.take k :: chunksOf k (l.drop k) := by
  rw [chunksOf]
  rw [dif_neg (by push_neg; exact ⟨by omega, hl⟩)]

/-- The first `j` chunks concatenate to the first `j·k` bytes. -/
theorem flatten_take_chunksOf (k : Nat) (hk : 1 ≤ k) (j : Nat) (l : List Nat) :
    ((chunksOf k l).take j).flatten = l.take (j * k) := by
  induction j generalizing l with
  | zero => simp
  | succ j ih =>
    by_cases hl : l = []
    · subst hl
      rw [chunksOf_nil]
      simp
    · rw [chunksOf_cons k l hk hl, List.take_succ_cons, List.flatten_cons, ih (l.drop k),
        show (j + 1) * k = k + j * k by ring, List.take_add]

/-- The chunks cover the whole list. -/
theorem length_le_chunksOf_mul (k : Nat) (hk : 1 ≤ k) (l : List Nat) :
    l.length ≤ (chunksOf k l).length * k := by
  have H : ∀ N l, l.length ≤ N → l.length ≤ (chunksOf k l).length * k := by
    intro N
    induction N with
    | zero =>
      intro l hl
      have hn : l = [] := List.length_eq_zero.mp (by omega)
      subst hn
      simp [chunksOf_nil]
    | succ N ih =>
      intro l hl
      by_cases hnil : l = []
      · subst hnil
        simp [chunksOf_nil]
      · rw [chunksOf_cons k l hk hnil]
        simp only [List.length_cons]
        have hpos : 1 ≤ l.length := List.length_pos.mpr hnil
        have hdrop : (l.drop k).length ≤ N := by
          rw [List.length_drop]
          omega
        have hrec := ih (l.drop k) hdrop
        rw [List.length_drop] at hrec
        rw [Nat.succ_mul]
        omega
  exact H l.length l le_rfl

/-- The chunk count is bounded by any `n` with `l.length ≤ n·k`. -/
theorem chunksOf_length_le (k : Nat) (hk : 1 ≤ k) (l : List Nat) (n : Nat)
    (hln : l.length ≤ n * k) : (chunksOf k l).length ≤ n := by
  induction n generalizing l with
  | zero =>
    have hn : l = [] := List.length_eq_zero.mp (by omega)
    subst hn
    simp [chunksOf_nil]
  | succ n ih =>
    by_cases hnil : l = []
    · subst hnil
      simp [chunksOf_nil]
    · rw [chunksOf_cons k l hk hnil]
      simp only [List.length_cons]
      have hpos : 1 ≤ l.length := List.length_pos.mpr hnil
      have hdrop : (l.drop k).length ≤ n * k := by
        rw [List.length_drop]
        rw [Nat.succ_mul] at hln
        omega
      have := ih (l.drop k) hdrop
      omega

/-- Each chunk is the `k`-byte window of the list at its index. -/
theorem chunksOf_eq_map_range (k : Nat) (hk : 1 ≤ k) (l : List Nat) :
    chunksOf k l = (List.range (chunksOf k l).length).map
      (fun i => (l.drop (i * k)).take k) := by
  have H : ∀ N l, l.length ≤ N → chunksOf k l = (List.range (chunksOf k l).length).map
      (fun i => (l.drop (i * k)).take k) := by
    intro N
    induction N with
    | zero =>
      intro l hl
      have hn : l = [] := List.length_eq_zero.mp (by omega)
      subst hn
      simp [chunksOf_nil]
    | succ N ih =>
      intro l hl
      by_cases hnil : l = []
      · subst hnil
        simp [chunksOf_nil]
      · rw [chunksOf_cons k l hk hnil]
        have hpos : 1 ≤ l.length := List.length_pos.mpr hnil
        have hdrop : (l.drop k).length ≤ N := by
          rw [List.length_drop]
          omega
        rw [List.length_cons, List.range_succ_eq_map, List.map_cons, List.map_map]
        congr 1
        · simp
        · rw [ih (l.drop k) hdrop]
          simp only [List.length_map, List.length_range]
          apply List.map_congr_left
          intro i hi
          simp only [Function.comp]
          rw [List.drop_drop]
          congr 2
          rw [Nat.succ_mul]
          omega
  exact H l.length l le_rfl

/-- Setting at the boundary of an append. -/
theorem set_append_length {α : Type} (l1 l2 : List α) (a : α) :
    (l1 ++ l2).set l1.length a = l1 ++ l2.set 0 a := by
  induction l1 with
  | nil => simp
  | cons x rest ih => simp [List.set, ih]

/-- Setting at any index equal to the boundary of an append. -/
theorem set_append_length_at {α : Type} (l1 l2 : List α) (a : α) (i : Nat)
    (h : i = l1.length) : (l1 ++ l2).set i a = l1 ++ l2.set 0 a := by
  subst h
  exact set_append_length l1 l2 a

/-- Members of a dropped range are at least the drop count. -/
theorem mem_drop_range_ge (n m x : Nat) (h : x ∈ (List.range n).drop m) : m ≤ x := by
  obtain ⟨j, hj, hx⟩ := List.mem_iff_getElem.mp h
  rw [List.getElem_drop] at hx
  rw [List.getElem_range] at hx
  omega

/-- Inserting twice under the same key keeps only the second binding. -/
theorem insertA_insertA {α : Type} (m : List (Nat × α)) (k : Nat) (v v' : α) :
    insertA (insertA m k v) k v' = insertA m k v' := by
  induction m with
  | nil => simp [insertA]
  | cons p rest ih =>
    rcases p with ⟨pk, pv⟩
    by_cases hp : pk = k
    · subst hp
      simp [insertA]
    · rw [insertA_cons_ne pk k pv v rest hp, insertA_cons_ne pk k pv v' rest hp,
        insertA_cons_ne pk k pv v' (insertA rest k v) hp, ih]

/-- The empty buffer. -/
theorem bufAt_zero (b : Block) (n csz : Nat) :
    bufAt b n csz 0 = List.replicate n (none : Option Shred) := by
  simp [bufAt]

/-- The buffer always has `n` slots. -/
theorem bufAt_length (b : Block) (n csz j : Nat) (hj : j ≤ n) :
    (bufAt b n csz j).length = n := by
  simp [bufAt]
  omega

/-- Storing the `j`-th shred fills the next slot. -/
theorem bufAt_set (b : Block) (n csz j : Nat) (hj : j < n) :
    (bufAt b n csz j).set j (some (shredOf b n csz j)) = bufAt b n csz (j + 1) := by
  unfold bufAt
  rw [set_append_length_at _ _ _ j (by simp)]
  rw [show n - j = (n - j - 1) + 1 by omega, List.replicate_succ]
  rw [show ((none : Option Shred) :: List.replicate (n - j - 1) none).set 0
        (some (shredOf b n csz j)) = some (shredOf b n csz j) ::
        List.replicate (n - j - 1) none from rfl]
  rw [show n - j - 1 = n - (j + 1) by omega]
  rw [List.range_succ, List.map_append, List.map_singleton]
  simp [List.append_assoc]

/-- The buffer after `j` shreds has exactly `j` non-empty slots. -/
theorem bufAt_count (b : Block) (n csz j : Nat) :
    ((bufAt b n csz j).filter (·.isSome)).length = j := by
  unfold bufAt
  rw [List.filter_append]
  have h1 : ((List.range j).map (fun i => some (shredOf b n csz i))).filter (·.isSome) =
      (List.range j).map (fun i => some (shredOf b n csz i)) := by
    apply List.filter_eq_self.mpr
    intro x hx
    obtain ⟨i, _, hi⟩ := List.mem_map.mp hx
    subst hi
    rfl
  have h2 : (List.replicate (n - j) (none : Option Shred)).filter (·.isSome) = [] := by
    simp
  rw [h1, h2]
  simp

/-- The present shreds of the buffer, in index order. -/
theorem bufAt_filterMap (b : Block) (n csz j : Nat) :
    (bufAt b n csz j).filterMap id = (List.range j).map (shredOf b n csz) := by
  unfold bufAt
  rw [List.filterMap_append]
  have h2 : (List.replicate (n - j) (none : Option Shred)).filterMap id = [] := by
    simp
  rw [h2, List.append_nil, List.filterMap_map]
  rw [show ((id : Option Shred → Option Shred) ∘ fun i => some (shredOf b n csz i)) =
      (fun i => some (shredOf b n csz i)) from rfl]
  exact congrFun (List.filterMap_eq_map (shredOf b n csz)) (List.range j)

/-- Concatenating the data of the first `j` shreds yields the first `j·csz`
serialised bytes. -/
theorem flatten_shred_data (b : Block) (n csz j : Nat) :
    (((List.range j).map (shredOf b n csz)).map (·.data)).flatten =
      (serializeBlock b).take (j * csz) := by
  induction j with
  | zero => simp
  | succ j ih =>
    rw [List.range_succ, List.map_append, List.map_append, List.flatten_append, ih]
    rw [show ((([j].map (shredOf b n csz)).map (·.data)).flatten) =
        ((serializeBlock b).drop (j * csz)).take csz from by simp [shredOf]]
    rw [← List.take_add]
    congr 1
    rw [Nat.succ_mul]

/-- What `try_reconstruct_block` does to a state holding the first `j` shreds
of a well-formed block (and no cached block): nothing below the floor
threshold; at or above it, reconstruction succeeds and caches the block
exactly when the `j` received shreds cover the whole serialisation (a strict
prefix never deserialises, by parser prefix-determinism). -/
theorem store_reconstruct (b : Block) (hwf : BlockWF b) (n csz : Nat)
    (hcsz : 1 ≤ csz) (vset' : ValidatorSet) (rs : List (Nat × List (Option Shred)))
    (rc : List (Nat × Block)) (hrc : lookupA rc b.id = none)
    (j : Nat) (hj : j ≤ n) :
    (Rotor.try_reconstruct_block ⟨vset', insertA rs b.id (bufAt b n csz j), rc⟩ b.id).1 =
      ⟨vset', insertA rs b.id (bufAt b n csz j),
        if n * 80 / 100 ≤ j ∧ (serializeBlock b).length ≤ j * csz
        then insertA rc b.id b else rc⟩ := by
  unfold Rotor.try_reconstruct_block
  rw [show (Rotor.mk vset' (insertA rs b.id (bufAt b n csz j)) rc).reconstructed_blocks =
      rc from rfl]
  rw [hrc]
  rw [show (Rotor.mk vset' (insertA rs b.id (bufAt b n csz j)) rc).received_shreds =
      insertA rs b.id (bufAt b n csz j) from rfl]
  rw [lookupA_insertA_self]
  dsimp only
  rw [bufAt_count, bufAt_length b n csz j hj]
  by_cases hth : j < n * 80 / 100
  · rw [if_pos hth, if_neg (by omega)]
  · rw [if_neg hth]
    rw [bufAt_filterMap, flatten_shred_data]
    by_cases hL : (serializeBlock b).length ≤ j * csz
    · rw [List.take_of_length_le hL]
      have hdes : deserializeBlock (serializeBlock b) = some b := by
        unfold deserializeBlock
        have hx := parseBlock_enc b [] hwf
        rw [List.append_nil] at hx
        rw [hx]
        rfl
      rw [hdes]
      dsimp only
      rw [if_pos rfl, if_pos ⟨by omega, hL⟩]
    · have hdes : deserializeBlock ((serializeBlock b).take (j * csz)) = none := by
        unfold deserializeBlock
        rw [parseBlock_take_none b hwf (j * csz) (by omega)]
        rfl
      rw [hdes]
      rw [if_neg (by intro hand; exact hL hand.2)]

/-- Receiving the `j`-th shred advances `stateAt j` to `stateAt (j+1)`. -/
theorem receive_step (r0 : Rotor) (b : Block) (hwf : BlockWF b) (n csz : Nat)
    (hn : n = r0.validator_set.validators.length) (hcsz : 1 ≤ csz)
    (hrc0 : lookupA r0.reconstructed_blocks b.id = none)
    (j : Nat) (hj : j < n) :
    (Rotor.receive_shred (stateAt r0 b n csz j) (shredOf b n csz j)).1 =
      stateAt r0 b n csz (j + 1) := by
  have hblock : (shredOf b n csz j).block_id = b.id := rfl
  have hindex : (shredOf b n csz j).index = j := rfl
  by_cases hcj : n * 80 / 100 ≤ j ∧ (serializeBlock b).length ≤ j * csz
  · have hcj1 : n * 80 / 100 ≤ j + 1 ∧ (serializeBlock b).length ≤ (j + 1) * csz :=
      ⟨by omega, le_trans hcj.2 (Nat.mul_le_mul_right _ (by omega))⟩
    have hstate : stateAt r0 b n csz j =
        ⟨r0.validator_set, insertA r0.received_shreds b.id (bufAt b n csz j),
          insertA r0.reconstructed_blocks b.id b⟩ := by
      unfold stateAt
      rw [if_pos hcj]
    have hstate1 : stateAt r0 b n csz (j + 1) =
        ⟨r0.validator_set, insertA r0.received_shreds b.id (bufAt b n csz (j + 1)),
          insertA r0.reconstructed_blocks b.id b⟩ := by
      unfold stateAt
      rw [if_pos hcj1]
    rw [hstate, hstate1]
    unfold Rotor.receive_shred
    rw [hblock, hindex]
    rw [show (Rotor.mk r0.validator_set
        (insertA r0.received_shreds b.id (bufAt b n csz j))
        (insertA r0.reconstructed_blocks b.id b)).received_shreds =
        insertA r0.received_shreds b.id (bufAt b n csz j) from rfl]
    rw [lookupA_insertA_self]
    dsimp only
    rw [bufAt_length b n csz j (by omega)]
    rw [if_pos hj]
    rw [bufAt_set b n csz j hj, insertA_insertA]
    unfold Rotor.try_reconstruct_block
    rw [show (Rotor.mk r0.validator_set
        (insertA r0.received_shreds b.id (bufAt b n csz (j + 1)))
        (insertA r0.reconstructed_blocks b.id b)).reconstructed_blocks =
        insertA r0.reconstructed_blocks b.id b from rfl]
    rw [lookupA_insertA_self]
  · have hstate : stateAt r0 b n csz j =
        ⟨r0.validator_set, insertA r0.received_shreds b.id (bufAt b n csz j),
          r0.reconstructed_blocks⟩ := by
      unfold stateAt
      rw [if_neg hcj]
    rw [hstate]
    unfold Rotor.receive_shred
    rw [hblock, hindex]
    rw [show (Rotor.mk r0.validator_set
        (insertA r0.received_shreds b.id (bufAt b n csz j))
        r0.reconstructed_blocks).received_shreds =
        insertA r0.received_shreds b.id (bufAt b n csz j) from rfl]
    rw [lookupA_insertA_self]
    dsimp only
    rw [bufAt_length b n csz j (by omega)]
    rw [if_pos hj]
    rw [bufAt_set b n csz j hj, insertA_insertA]
    rw [store_reconstruct b hwf n csz hcsz r0.validator_set r0.received_shreds
      r0.reconstructed_blocks hrc0 (j + 1) (by omega)]
    rfl

/-- Receiving the very first shred produces `stateAt 1`. -/
theorem receive_first (r0 : Rotor) (b : Block) (hwf : BlockWF b) (n csz : Nat)
    (hn : 1 ≤ n) (hcsz : 1 ≤ csz)
    (hrec : lookupA r0.received_shreds b.id = none)
    (hrc0 : lookupA r0.reconstructed_blocks b.id = none) :
    (Rotor.receive_shred r0 (shredOf b n csz 0)).1 = stateAt r0 b n csz 1 := by
  have hblock : (shredOf b n csz 0).block_id = b.id := rfl
  have hindex : (shredOf b n csz 0).index = 0 := rfl
  have htot : (shredOf b n csz 0).total_shreds = n := rfl
  unfold Rotor.receive_shred
  rw [hblock, hindex, htot, hrec]
  dsimp only
  rw [show List.replicate n (none : Option Shred) = bufAt b n csz 0 from
    (bufAt_zero b n csz).symm]
  rw [bufAt_length b n csz 0 (by omega)]
  rw [if_pos (by omega)]
  rw [bufAt_set b n csz 0 (by omega), insertA_insertA]
  rw [store_reconstruct b hwf n csz hcsz r0.validator_set r0.received_shreds
    r0.reconstructed_blocks hrc0 1 hn]
  rfl

/-- The ceiling-style chunk size of `encode_block` is positive and its `n`
chunks cover the serialisation. -/
theorem csz_covers (L n : Nat) (hn : 1 ≤ n) (hL : 1 ≤ L) :
    1 ≤ (L + n - 1) / n ∧ L ≤ n * ((L + n - 1) / n) := by
  constructor
  · rw [Nat.le_div_iff_mul_le (by omega)]
    omega
  · have h2 : L + n - 1 < ((L + n - 1) / n + 1) * n :=
      (Nat.div_lt_iff_lt_mul (by omega)).mp (by omega)
    rw [Nat.succ_mul] at h2
    have h3 := Nat.mul_comm ((L + n - 1) / n) n
    omega

/-- Zipping a list with its own image pairs each element with its image. -/
theorem zip_self_map {α β : Type} (l : List α) (w : α → β) :
    l.zip (l.map w) = l.map (fun a => (a, w a)) := by
  induction l with
  | nil => rfl
  | cons x xs ih => simp [ih]

/-- The chunk-and-pad pipeline of `encode_block` produces exactly the `n`
shreds `shredOf b n csz 0 .. shredOf b n csz (n-1)`. -/
theorem padShreds_enum_eq (b : Block) (n csz : Nat) (hcsz : 1 ≤ csz)
    (hm : (chunksOf csz (serializeBlock b)).length ≤ n) :
    padShreds b.id n ((chunksOf csz (serializeBlock b)).enum.map
      (fun p => Shred.mk b.id p.1 n p.2)) =
      (List.range n).map (shredOf b n csz) := by
  have hmL : (serializeBlock b).length ≤ (chunksOf csz (serializeBlock b)).length * csz :=
    length_le_chunksOf_mul csz hcsz _
  have hbase : (chunksOf csz (serializeBlock b)).enum.map
      (fun p => Shred.mk b.id p.1 n p.2) =
      (List.range (chunksOf csz (serializeBlock b)).length).map (shredOf b n csz) := by
    conv_lhs => rw [chunksOf_eq_map_range csz hcsz (serializeBlock b)]
    rw [List.enum_eq_zip_range]
    simp only [List.length_map, List.length_range]
    rw [zip_self_map, List.map_map]
    rfl
  unfold padShreds
  rw [hbase]
  simp only [List.length_map, List.length_range]
  conv_rhs => rw [← List.take_append_drop (chunksOf csz (serializeBlock b)).length
    (List.range n), List.map_append]
  congr 1
  · rw [List.take_range, Nat.min_eq_left hm]
  · apply List.map_congr_left
    intro i hi
    have him := mem_drop_range_ge n (chunksOf csz (serializeBlock b)).length i hi
    have hdropnil : (serializeBlock b).drop (i * csz) = [] := by
      apply List.drop_eq_nil_of_le
      calc (serializeBlock b).length ≤ (chunksOf csz (serializeBlock b)).length * csz := hmL
        _ ≤ i * csz := Nat.mul_le_mul_right _ him
    unfold shredOf
    rw [hdropnil, List.take_nil]

/-- `encode_block` in closed form: exactly one shred per validator index. -/
theorem encode_block_eq (r0 : Rotor) (b : Block)
    (hn : 1 ≤ r0.validator_set.validators.length) :
    r0.encode_block b = .ok ((List.range r0.validator_set.validators.length).map
      (shredOf b r0.validator_set.validators.length
        (((serializeBlock b).length + r0.validator_set.validators.length - 1) /
          r0.validator_set.validators.length))) := by
  have hL1 := serializeBlock_length_pos b
  obtain ⟨hcsz, hLn⟩ := csz_covers (serializeBlock b).length
    r0.validator_set.validators.length hn hL1
  have hm := chunksOf_length_le _ hcsz (serializeBlock b) _ hLn
  unfold Rotor.encode_block
  dsimp only
  rw [padShreds_enum_eq b _ _ hcsz hm]

/-- Feeding the remaining shreds from `stateAt j` onward reaches `stateAt n`. -/
theorem recv_fold_from (r0 : Rotor) (b : Block) (hwf : BlockWF b) (n csz : Nat)
    (hnv : n = r0.validator_set.validators.length) (hcsz : 1 ≤ csz)
    (hrc0 : lookupA r0.reconstructed_blocks b.id = none) :
    ∀ k j, 1 ≤ j → j + k = n →
      Rotor.recvFold (stateAt r0 b n csz j)
        (((List.range n).map (shredOf b n csz)).drop j) = stateAt r0 b n csz n := by
  intro k
  induction k with
  | zero =>
    intro j hj1 hjk
    have hj : j = n := by omega
    subst hj
    rw [List.drop_eq_nil_of_le (by simp)]
    rfl
  | succ k ih =>
    intro j hj1 hjk
    have hj : j < n := by omega
    have hlen : j < ((List.range n).map (shredOf b n csz)).length := by simp [hj]
    have hdrop : ((List.range n).map (shredOf b n csz)).drop j =
        shredOf b n csz j :: ((List.range n).map (shredOf b n csz)).drop (j + 1) := by
      rw [List.drop_eq_getElem_cons hlen]
      congr 1
      simp
    rw [hdrop]
    rw [show Rotor.recvFold (stateAt r0 b n csz j)
        (shredOf b n csz j :: ((List.range n).map (shredOf b n csz)).drop (j + 1)) =
        Rotor.recvFold ((stateAt r0 b n csz j).receive_shred (shredOf b n csz j)).1
          (((List.range n).map (shredOf b n csz)).drop (j + 1)) from rfl]
    rw [receive_step r0 b hwf n csz hnv hcsz hrc0 j hj]
    exact ih (j + 1) (by omega) (by omega)

/-- C7: round-trip through Rotor.  Over a non-empty validator set of size N,
`encode_block` returns Ok with exactly N shreds carrying the block's id,
indices 0..N-1 and `total_shreds = N`; and feeding all N shreds to
`receive_shred` in index order reconstructs and caches a block equal to the
original in every field (`get_block` returns it). -/
theorem encode_receive_roundtrip (r0 : Rotor) (b : Block) (hwf : BlockWF b)
    (hn : 1 ≤ r0.validator_set.validators.length)
    (hrec : lookupA r0.received_shreds b.id = none)
    (hblk : lookupA r0.reconstructed_blocks b.id = none) :
    ∃ shreds, r0.encode_block b = .ok shreds ∧
      shreds.length = r0.validator_set.validators.length ∧
      (∀ i, ∀ hi : i < shreds.length,
        (shreds.get ⟨i, hi⟩).block_id = b.id ∧ (shreds.get ⟨i, hi⟩).index = i ∧
        (shreds.get ⟨i, hi⟩).total_shreds = r0.validator_set.validators.length) ∧
      Rotor.get_block (r0.recvFold shreds) b.id = some b := by
  have hL1 := serializeBlock_length_pos b
  obtain ⟨hcsz, hLn⟩ := csz_covers (serializeBlock b).length
    r0.validator_set.validators.length hn hL1
  refine ⟨_, encode_block_eq r0 b hn, by simp, ?_, ?_⟩
  · intro i hi
    refine ⟨by simp [shredOf], by simp [shredOf], by simp [shredOf]⟩
  · have hlen0 : 0 < ((List.range r0.validator_set.validators.length).map
        (shredOf b r0.validator_set.validators.length
          (((serializeBlock b).length + r0.validator_set.validators.length - 1) /
            r0.validator_set.validators.length))).length := by
      simp
      omega
    have h0 : ((List.range r0.validator_set.validators.length).map
        (shredOf b r0.validator_set.validators.length
          (((serializeBlock b).length + r0.validator_set.validators.length - 1) /
            r0.validator_set.validators.length))) =
        shredOf b r0.validator_set.validators.length
          (((serializeBlock b).length + r0.validator_set.validators.length - 1) /
            r0.validator_set.validators.length) 0 ::
        ((List.range r0.validator_set.validators.length).map
          (shredOf b r0.validator_set.validators.length
            (((serializeBlock b).length + r0.validator_set.validators.length - 1) /
              r0.validator_set.validators.length))).drop 1 := by
      conv_lhs => rw [← List.drop_zero ((List.range r0.validator_set.validators.length).map
        (shredOf b r0.validator_set.validators.length
          (((serializeBlock b).length + r0.validator_set.validators.length - 1) /
            r0.validator_set.validators.length)))]
      rw [List.drop_eq_getElem_cons hlen0]
      congr 1
      simp
    rw [h0]
    rw [show Rotor.recvFold r0 (shredOf b r0.validator_set.validators.length
        (((serializeBlock b).length + r0.validator_set.validators.length - 1) /
          r0.validator_set.validators.length) 0 ::
        ((List.range r0.validator_set.validators.length).map
          (shredOf b r0.validator_set.validators.length
            (((serializeBlock b).length + r0.validator_set.validators.length - 1) /
              r0.validator_set.validators.length))).drop 1) =
        Rotor.recvFold (r0.receive_shred (shredOf b r0.validator_set.validators.length
          (((serializeBlock b).length + r0.validator_set.validators.length - 1) /
            r0.validator_set.validators.length) 0)).1
          (((List.range r0.validator_set.validators.length).map
            (shredOf b r0.validator_set.validators.length
              (((serializeBlock b).length + r0.validator_set.validators.length - 1) /
                r0.validator_set.validators.length))).drop 1) from rfl]
    rw [receive_first r0 b hwf _ _ hn hcsz hrec hblk]
    rw [recv_fold_from r0 b hwf _ _ rfl hcsz hblk
      (r0.validator_set.validators.length - 1) 1 (by omega) (by omega)]
    unfold Rotor.get_block stateAt
    dsimp only
    rw [if_pos ⟨by omega, hLn⟩]
    exact lookupA_insertA_self _ _ _

/-- C7-witness: the round-trip theorem applied to a fresh Rotor over a
single-validator set and a concrete block with one transaction. -/
theorem encode_receive_roundtrip_witness :
    BlockWF ⟨7, 0, none, 3, [[1, 2]], 1000⟩ ∧
    1 ≤ (Rotor.new vs100).validator_set.validators.length ∧
    lookupA (Rotor.new vs100).received_shreds 7 = none ∧
    lookupA (Rotor.new vs100).reconstructed_blocks 7 = none ∧
    (∃ shreds, (Rotor.new vs100).encode_block ⟨7, 0, none, 3, [[1, 2]], 1000⟩ =
        .ok shreds ∧
      shreds.length = (Rotor.new vs100).validator_set.validators.length ∧
      (∀ i, ∀ hi : i < shreds.length,
        (shreds.get ⟨i, hi⟩).block_id = 7 ∧ (shreds.get ⟨i, hi⟩).index = i ∧
        (shreds.get ⟨i, hi⟩).total_shreds =
          (Rotor.new vs100).validator_set.validators.length) ∧
      Rotor.get_block ((Rotor.new vs100).recvFold shreds) 7 =
        some ⟨7, 0, none, 3, [[1, 2]], 1000⟩) := by
  have hwf : BlockWF ⟨7, 0, none, 3, [[1, 2]], 1000⟩ := by
    refine ⟨by decide, by decide, ?_, by decide, by decide, ?_, by decide⟩
    · intro p hp
      simp at hp
    · intro tx htx
      simp at htx
      subst htx
      decide
  exact ⟨hwf, by decide, by decide, by decide,
    encode_receive_roundtrip (Rotor.new vs100) ⟨7, 0, none, 3, [[1, 2]], 1000⟩
      hwf (by decide) (by decide) (by decide)⟩
